import Mathlib

/-!
Verification of the movie catalog index and query engine (`movies.py`, with
`app.py` as its caller).

Python strings are modelled as `List Char` (ASCII-faithful: the catalog data
and all queries the spec discusses are ASCII). Python floats (similarity
scores, ratings) are modelled as exact rationals `ℚ` where only ordering and
equality matter, and as reals `ℝ` for the cosine-similarity analysis.
Fallible lookups (`int()` on a pandas Series that may hold several values)
return `Except Unit _`, where `.error ()` models the raised `TypeError`.
-/

/-- A Python `str`, as a list of characters. -/
abbrev Str := List Char

deriving instance DecidableEq for Except

/-- Python substring containment, `q in s` (also pandas
`.str.contains` with an escaped pattern): `q` occurs contiguously in `s`. -/
def strContains (q s : Str) : Bool := decide (q <:+: s)

/-- Python `str.isspace` restricted to the ASCII whitespace characters
(space, tab, newline, vertical tab, form feed, carriage return); this is
also the character class that the regex `\s` matches on ASCII text. -/
def pyIsSpace (c : Char) : Bool :=
  c.toNat == 32 || c.toNat == 9 || c.toNat == 10 ||
  c.toNat == 11 || c.toNat == 12 || c.toNat == 13

/-- Python `s.lstrip()`: drop leading whitespace. -/
def trimLeft (s : Str) : Str := s.dropWhile pyIsSpace

/-- Python `s.rstrip()`: drop trailing whitespace. -/
def trimRight (s : Str) : Str := (s.reverse.dropWhile pyIsSpace).reverse

/-- Python `s.strip()`: drop leading and trailing whitespace. -/
def pyStrip (s : Str) : Str := trimRight (trimLeft s)

/-- Python `s.lower()` (ASCII): lowercase every character. -/
def lowerStr (s : Str) : Str := s.map Char.toLower

/-- The placeholder tokens `movies.py` treats as missing values (`nz`,
lines 11-17: `{"nan", "none", "null"}`). -/
def placeholders : List Str := [("nan".data), ("none".data), ("null".data)]

/-- `movies.py` lines 11-17, `nz`: strip the string; if its lowercase form
is a placeholder token return the empty string, else the stripped string.
(The `str(s)` cast and the `None` check are identities in this model, where
every value is already a string.) -/
def nz (s : Str) : Str :=
  let t := pyStrip s
  if lowerStr t ∈ placeholders then [] else t

/-- Whether a character is one of the three delimiters of the character
class `[;,/]` in `re.sub(r"[;,/]+", "|", s)`. -/
def isDelim (c : Char) : Bool := c == ';' || c == ',' || c == '/'

/-- State machine for `re.sub(r"[;,/]+", "|", s)` (`movies.py` line 23):
each maximal run of characters from `[;,/]` is replaced by a single `'|'`;
the flag records whether we are inside such a run (so that only the first
character of the run emits the `'|'`). -/
def sub1Aux : Bool → Str → Str
  | _, [] => []
  | inRun, c :: cs =>
    if isDelim c then (if inRun then [] else ['|']) ++ sub1Aux true cs
    else c :: sub1Aux false cs

/-- `re.sub(r"[;,/]+", "|", s)`. -/
def sub1 (s : Str) : Str := sub1Aux false s

/-- State machine for `re.sub(r"\|{2,}", "|", s)` (`movies.py` line 24):
each maximal run of two or more `'|'` collapses to one `'|'`; a single
`'|'` is left alone, so the net effect is that every maximal `'|'` run
becomes a single `'|'`. -/
def sub2Aux : Bool → Str → Str
  | _, [] => []
  | inRun, c :: cs =>
    if c == '|' then (if inRun then [] else ['|']) ++ sub2Aux true cs
    else c :: sub2Aux false cs

/-- `re.sub(r"\|{2,}", "|", s)`. -/
def sub2 (s : Str) : Str := sub2Aux false s

/-- Python `s.split(sep)` for a one-character separator: the pieces between
occurrences of the separator (empty pieces included). -/
def splitOnChar (sep : Char) : Str → List Str
  | [] => [[]]
  | a :: r =>
    match splitOnChar sep r with
    | [] => if a == sep then [[], []] else [[a]]
    | s :: ss => if a == sep then [] :: s :: ss else (a :: s) :: ss

/-- `movies.py` lines 19-25, `split_multi`: clean the string with `nz`;
if empty return `[]`; else normalize the `[;,/]` delimiter runs to `'|'`,
collapse `'|'` runs, split on `'|'`, strip each piece and keep the
non-empty ones. -/
def split_multi (s : Str) : List Str :=
  let s1 := nz s
  if s1 = [] then []
  else ((splitOnChar '|' (sub2 (sub1 s1))).map pyStrip).filter (fun p => !p.isEmpty)

/-- State machine for `re.sub(r"\s+", " ", t)` (`movies.py` line 34): each
maximal whitespace run is replaced by a single space. -/
def collapseWsAux : Bool → Str → Str
  | _, [] => []
  | inRun, c :: cs =>
    if pyIsSpace c then (if inRun then [] else [' ']) ++ collapseWsAux true cs
    else c :: collapseWsAux false cs

/-- `re.sub(r"\s+", " ", t)`. -/
def collapseWs (s : Str) : Str := collapseWsAux false s

/-- `movies.py` lines 32-35, `normalize_title`: `nz`, lowercase, collapse
whitespace runs to single spaces, strip. -/
def normalize_title (t : Str) : Str := pyStrip (collapseWs (lowerStr (nz t)))

/-- Python `str.title()` (ASCII): a letter that follows a non-letter is
uppercased, a letter that follows a letter is lowercased, other characters
are kept; the flag records whether the previous character was a letter. -/
def pyTitleAux : Bool → Str → Str
  | _, [] => []
  | prevAlpha, c :: cs =>
    (if c.isAlpha then (if prevAlpha then c.toLower else c.toUpper) else c)
      :: pyTitleAux c.isAlpha cs

/-- Python `s.title()` (ASCII). -/
def pyTitle (s : Str) : Str := pyTitleAux false s

/-- Python `c if c != '_' else ' '`, the character map of
`t.replace("_", " ")` in `top2_actors_from_string`. -/
def underscoreToSpace (c : Char) : Char := if c == '_' then ' ' else c

/-- `movies.py` lines 27-30, `top2_actors_from_string`: split the actor
string, keep the first two tokens, replace underscores by spaces and
title-case each. -/
def top2_actors_from_string (s : Str) : List Str :=
  ((split_multi s).take 2).map (fun t => pyTitle (t.map underscoreToSpace))

/-- Python `sep.join(parts)`. -/
def joinWith (sep : Str) : List Str → Str
  | [] => []
  | [t] => t
  | t :: ts => t ++ sep ++ joinWith sep ts

/-- `movies.py` lines 37-44, `pretty_genres`: clean with `nz`; if empty
return the empty string; else normalize delimiters exactly as
`split_multi` does and join the tokens with `" | "`. -/
def pretty_genres (g : Str) : Str :=
  let g1 := nz g
  if g1 = [] then []
  else
    joinWith (" | ".data)
      (((splitOnChar '|' (sub2 (sub1 g1))).map pyStrip).filter (fun p => !p.isEmpty))

/-- A raw row of `movies.csv` as `pd.read_csv(..., dtype=str,
keep_default_na=False)` delivers it: every field a plain string (a missing
column is synthesized as the empty string by `movies.py` lines 47-49). -/
structure RawRecord where
  title_x : Str
  imdb_rating : Str
  genres : Str
  actors : Str
  story : Str
  release_date : Str
deriving DecidableEq

/-- A fully-cleaned row of `movies_df` after the load pipeline
(`movies.py` lines 51-77), with every derived column. -/
structure Record where
  titleX : Str
  imdbRating : Str
  genres : Str
  actors : Str
  story : Str
  releaseDate : Str
  actorsTop2 : List Str
  genresPretty : Str
  combinedText : Str
  titleNorm : Str
deriving DecidableEq

/-- The record whose fields are all empty (used as the `getD` default for
row access; the program only accesses rows that exist). -/
def dfltRecord : Record := ⟨[], [], [], [], [], [], [], [], [], []⟩

/-- `movies.py` lines 56-68 and 77 applied to one surviving row: clean the
text fields with `nz`, derive `actors_top2`, `genres_pretty`,
`combined_text` (story, genres and actors joined by spaces, then `nz`)
and `title_norm`. -/
def mkRecord (r : RawRecord) : Record :=
  let story := nz r.story
  let genres := nz r.genres
  let releaseDate := nz r.release_date
  let actors := nz r.actors
  { titleX := r.title_x
    imdbRating := r.imdb_rating
    genres := genres
    actors := actors
    story := story
    releaseDate := releaseDate
    actorsTop2 := top2_actors_from_string actors
    genresPretty := pretty_genres genres
    combinedText := nz (story ++ (" ".data) ++ genres ++ (" ".data) ++ actors)
    titleNorm := normalize_title r.title_x }

/-- `movies_df.drop_duplicates(subset=["title_x"])` (`movies.py` line 53):
keep the first row for each display title; `seen` carries the titles
already kept. -/
def dropDupTitles : List RawRecord → List Str → List RawRecord
  | [], _ => []
  | r :: rs, seen =>
    if r.title_x ∈ seen then dropDupTitles rs seen
    else r :: dropDupTitles rs (r.title_x :: seen)

/-- `movies.py` lines 51-77, the load pipeline: `nz` the display title,
drop rows whose title is then empty, de-duplicate on display title
(first-seen wins), clean and derive the remaining columns, and drop rows
whose `combined_text` is empty. -/
def loadCatalog (raws : List RawRecord) : List Record :=
  let cleaned := raws.map (fun r => { r with title_x := nz r.title_x })
  let titled := cleaned.filter (fun r => !r.title_x.isEmpty)
  let deduped := dropDupTitles titled []
  (deduped.map mkRecord).filter (fun rec => !rec.combinedText.isEmpty)

/-- Python `enumerate` (also the row numbering `movies_df.index` gives a
freshly reset DataFrame): pair each element with its position, starting
at `n`. -/
def enumFrom : Nat → List α → List (Nat × α)
  | _, [] => []
  | n, a :: as => (n, a) :: enumFrom (n + 1) as

/-- `pd.Series.drop_duplicates()`: keep the first entry carrying each
value (pandas de-duplicates a Series by its values, not by its index
labels); `seen` carries the values already kept. -/
def dropDupValues : List (Str × Nat) → List Nat → List (Str × Nat)
  | [], _ => []
  | p :: ps, seen =>
    if p.2 ∈ seen then dropDupValues ps seen
    else p :: dropDupValues ps (p.2 :: seen)

/-- `movies.py` line 78: `pd.Series(movies_df.index,
index=movies_df["title_norm"]).drop_duplicates()`, as the list of
(label, value) = (`title_norm`, row number) pairs. Note the
de-duplication is by value (the row numbers, which are already distinct),
so duplicate `title_norm` labels survive. -/
def idx_by_title (cat : List Record) : List (Str × Nat) :=
  dropDupValues ((enumFrom 0 cat).map (fun p => (p.2.titleNorm, p.1))) []

/-- `movies.py` lines 104-109, `_best_match_index`: normalize the query;
`q in idx_by_title` is membership among the labels; `int(idx_by_title[q])`
yields the row when exactly one entry carries the label and raises
`TypeError` (modelled as `.error ()`) when several do, since `int()` of a
multi-element Series fails; no label at all returns `None`. -/
def best_match_index (cat : List Record) (movie_name : Str) : Except Unit (Option Nat) :=
  let q := normalize_title movie_name
  match (idx_by_title cat).filter (fun p => p.1 == q) with
  | [] => Except.ok none
  | [p] => Except.ok (some p.2)
  | _ => Except.error ()

/-- Stable insertion of `a` into `l`: `a` goes in front of the first
element it may precede (`le a b`), so an element inserted from further
left in the original list stays in front of every equal element. -/
def insertSorted (le : α → α → Bool) (a : α) : List α → List α
  | [] => [a]
  | b :: t => if le a b then a :: b :: t else b :: insertSorted le a t

/-- Python `sorted`, modelled as stable insertion sort: a permutation of
the input, ordered by `le`, and elements the comparator ties keep their
original relative order — the three properties that determine Python's
`sorted` uniquely. -/
def stableSort (le : α → α → Bool) : List α → List α
  | [] => []
  | x :: xs => insertSorted le x (stableSort le xs)

/-- The comparator of `sorted(sims, key=lambda x: x[1], reverse=True)`
(`movies.py` line 116): `a` may precede `b` iff `a`'s similarity score is
at least `b`'s. -/
def simDesc (a b : Nat × ℚ) : Bool := decide (b.2 ≤ a.2)

/-- `movies.py` lines 117-123, the selection loop of `recommend`: walk the
sorted (row, score) pairs, skip the query row `idx`, append each other row
to `acc`, and stop as soon as `top_n <= len(picked)` — checked only after
an append, so with `top_n = 0` one element is still picked. -/
def pickLoop : List (Nat × ℚ) → Nat → Nat → List Nat → List Nat
  | [], _, _, acc => acc
  | (i, _) :: rest, idx, top_n, acc =>
    if i = idx then pickLoop rest idx top_n acc
    else
      let acc2 := acc ++ [i]
      if top_n ≤ acc2.length then acc2 else pickLoop rest idx top_n acc2

/-- The output row shape of `recommend` and `get_movies_by_actor`
(`movies.py` lines 125-132 and 141-148). -/
structure Result where
  title : Str
  rating : Str
  actors : List Str
  genre : Str
  release_date : Str
  story : Str
deriving DecidableEq

/-- One output row built from a catalog record: `movies.py` lines 125-132
(the `fillna("")` calls are identities, the columns being strings
already). -/
def mkResult (r : Record) : Result :=
  { title := r.titleX
    rating := r.imdbRating
    actors := (split_multi r.actors).map pyTitle
    genre := r.genresPretty
    release_date := r.releaseDate
    story := r.story }

/-- The row-selection part of `recommend` (`movies.py` lines 111-123):
resolve the title (propagating the `TypeError` of a duplicated normalized
title); unresolved gives the empty result; else enumerate the query row's
similarity scores (`cosine_sim[idx]`, here the row of the given score
matrix), sort them descending by score with Python's stable sort, and run
the selection loop. -/
def recommend_rows (cat : List Record) (sim : List (List ℚ)) (movie_name : Str)
    (top_n : Nat) : Except Unit (List Nat) :=
  match best_match_index cat movie_name with
  | Except.error e => Except.error e
  | Except.ok none => Except.ok []
  | Except.ok (some idx) =>
    let sims := enumFrom 0 (sim.getD idx [])
    Except.ok (pickLoop (stableSort simDesc sims) idx top_n [])

/-- `movies.py` lines 111-133, `recommend`: the selected rows rendered as
output rows (`movies_df.iloc[picked]` and the output DataFrame). -/
def recommend (cat : List Record) (sim : List (List ℚ)) (movie_name : Str)
    (top_n : Nat) : Except Unit (List Result) :=
  (recommend_rows cat sim movie_name top_n).map
    (fun rows => rows.map (fun i => mkResult (cat.getD i dfltRecord)))

/-- `movies.py` lines 89-95, `search_titles`: normalize the query; an
empty normalized query short-circuits to `[]`; else keep the rows whose
`title_norm` contains the query as a substring (the pattern is
`re.escape`d, so containment is literal) and return the first `limit`
display titles. -/
def search_titles (cat : List Record) (query : Str) (limit : Nat) : List Str :=
  let q := normalize_title query
  if q = [] then []
  else ((cat.filter (fun r => strContains q r.titleNorm)).take limit).map (fun r => r.titleX)

/-- Lexicographic order on strings by code point, Python's `sorted` order
for the actor set. -/
def strLe : Str → Str → Bool
  | [], _ => true
  | _ :: _, [] => false
  | a :: s, b :: t => if a = b then strLe s t else decide (a < b)

/-- `movies.py` lines 82-86: the deduplicated, lowercased actor tokens of
every record, sorted (`sorted(list(all_actors_set))`; a Python set holds
each value once, modelled by `dedup` before sorting). -/
def all_actors_list (cat : List Record) : List Str :=
  stableSort strLe ((cat.map (fun r => (split_multi r.actors).map lowerStr)).flatten.dedup)

/-- `movies.py` lines 97-102, `search_actors`: lowercase and strip the
query; an empty query short-circuits to `[]`; else the title-cased actor
names containing the query as a substring, capped at `limit`. -/
def search_actors (cat : List Record) (query : Str) (limit : Nat) : List Str :=
  let q := pyStrip (lowerStr query)
  if q = [] then []
  else (((all_actors_list cat).filter (fun a => strContains q a)).map pyTitle).take limit

/-- `movies.py` lines 135-149, `get_movies_by_actor`: lowercase and strip
the name, keep the records one of whose actor tokens contains it as a
substring, and render them as output rows (the empty-filter special case
returns an empty DataFrame, which is the empty row list here too). -/
def get_movies_by_actor (cat : List Record) (actor_name : Str) : List Result :=
  let q := pyStrip (lowerStr actor_name)
  (cat.filter (fun r => (split_multi r.actors).any (fun a => strContains q (lowerStr a)))).map
    mkResult

/-- The value of an unsigned decimal digit string, most significant first. -/
def digitsToNat (l : Str) : Nat := l.foldl (fun n c => n * 10 + (c.toNat - 48)) 0

/-- A decimal number without sign: digits, optionally split by one `'.'`,
at least one digit in all; anything else is not numeric. -/
def parseUnsigned (t : Str) : Option ℚ :=
  match splitOnChar '.' t with
  | [ip] => if !ip.isEmpty && ip.all Char.isDigit then some ((digitsToNat ip : ℚ)) else none
  | [ip, fp] =>
    if (!ip.isEmpty || !fp.isEmpty) && ip.all Char.isDigit && fp.all Char.isDigit then
      some ((digitsToNat ip : ℚ) + (digitsToNat fp : ℚ) / ((10 : ℚ) ^ fp.length))
    else none
  | _ => none

/-- Modelled from the spec: the numeric coercion of `get_top_rated_movies`
("coerce `rating` to numeric (non-numeric → treated as missing/lowest)"),
whose defining code is imported by `app.py` but absent from the provided
sources. A stripped optionally-signed decimal parses to its exact value;
everything else (including `"nan"`) is missing. -/
def parseRating (s : Str) : Option ℚ :=
  match pyStrip s with
  | '-' :: r => (parseUnsigned r).map (fun q => -q)
  | '+' :: r => parseUnsigned r
  | r => parseUnsigned r

/-- Comparator on parsed ratings with missing as lowest. -/
def optRatingLe (x y : Option ℚ) : Bool :=
  match x, y with
  | none, _ => true
  | some _, none => false
  | some a, some b => decide (a ≤ b)

/-- Modelled from the spec: `get_top_rated_movies(limit)` is imported by
`app.py` (line 5) and called with `limit=10` (line 47) but its defining
code is absent from the provided sources. Per spec section 4.6: "coerce
`rating` to numeric (non-numeric → treated as missing/lowest), sort
descending, return top `limit`" — a stable descending sort on the parsed
rating, truncated to `limit`. -/
def get_top_rated_movies (cat : List Record) (limit : Nat) : List Record :=
  (stableSort (fun a b => optRatingLe (parseRating b.imdbRating) (parseRating a.imdbRating))
    cat).take limit

/-- Dot product of two real vectors (truncating to the shorter length). -/
noncomputable def dotProd (v w : List ℝ) : ℝ := (List.zipWith (fun a b => a * b) v w).sum

/-- Euclidean norm of a real vector. -/
noncomputable def vecNorm (v : List ℝ) : ℝ := Real.sqrt (dotProd v v)

/-- Cosine similarity of two vectors, `sklearn.metrics.pairwise
.cosine_similarity` on one pair: the dot product over the product of
norms (with the convention `x / 0 = 0` for degenerate inputs). -/
noncomputable def cosineSim (v w : List ℝ) : ℝ := dotProd v w / (vecNorm v * vecNorm w)

/-- `movies.py` line 74: `cosine_sim = cosine_similarity(tfidf_matrix,
tfidf_matrix)` — the matrix of pairwise cosine similarities of the rows
of a (tf-idf) matrix `vs`. -/
noncomputable def cosine_sim (vs : List (List ℝ)) (i j : Nat) : ℝ :=
  cosineSim (vs.getD i []) (vs.getD j [])

/-- Every text field of the raw record is empty, whitespace-only or a
placeholder token, i.e. `nz` sends each of them to the empty string. -/
def allBlank (r : RawRecord) : Bool :=
  (nz r.title_x).isEmpty && (nz r.imdb_rating).isEmpty && (nz r.genres).isEmpty &&
  (nz r.actors).isEmpty && (nz r.story).isEmpty && (nz r.release_date).isEmpty

/-- The four characters that `split_multi` treats as separators: the class
`[;,/]` normalized away by the first substitution, plus the split
character `'|'` itself. -/
def isSplitDelim (c : Char) : Bool := c == ';' || c == ',' || c == '/' || c == '|'

/-- The first character, if any, is not whitespace. -/
def headNotWs (t : Str) : Bool :=
  match t with
  | [] => true
  | c :: _ => !pyIsSpace c

/-- The last character, if any, is not whitespace. -/
def lastNotWs (t : Str) : Bool := headNotWs t.reverse

/-- A well-formed token for the delimiter-invariance statement: non-empty,
free of the four separator characters, and trimmed (no outer
whitespace). -/
def goodToken (t : Str) : Bool :=
  !t.isEmpty && t.all (fun c => !isSplitDelim c) && headNotWs t && lastNotWs t

/-- A well-formed separator run: a non-empty string of separator
characters. -/
def goodDelim (d : Str) : Bool := !d.isEmpty && d.all isSplitDelim

/-- The tokens interleaved with the separator runs: `t1 d1 t2 d2 ... tn`
(callers supply one fewer separator run than tokens). -/
def renderTokens : List Str → List Str → Str
  | [], _ => []
  | [t], _ => t
  | t :: ts, [] => t ++ renderTokens ts []
  | t :: ts, d :: ds => t ++ d ++ renderTokens ts ds

/-- The tokens joined by single pipes, the canonical form both
substitutions of `split_multi` reach. -/
def joinPipes : List Str → Str
  | [] => []
  | [t] => t
  | t :: ts => t ++ '|' :: joinPipes ts

/-- Concrete catalog rows used to instantiate the theorems. -/
def rawUp : RawRecord :=
  ⟨("Up".data), ("8.3".data), ("Animation".data), ("Ed Asner".data),
    ("balloon house".data), ("2009".data)⟩

/-- A second concrete row. -/
def rawDown : RawRecord :=
  ⟨("Down".data), ("7.1".data), ("Drama".data), ("Ed Norton".data),
    ("falling".data), ("2010".data)⟩

/-- A row whose display title "UP" differs from `rawUp`'s "Up" but
normalizes to the same `title_norm` "up". -/
def rawUP2 : RawRecord :=
  ⟨("UP".data), ("6".data), ("Drama".data), ("Al B".data), ("again".data),
    ("2011".data)⟩

/-- A row whose every text field is whitespace or a placeholder token. -/
def rawBlank : RawRecord :=
  ⟨(" nan ".data), ([]), ("  ".data), ("NULL".data), ("None".data), ("nan".data)⟩

/-- A two-row catalog with distinct normalized titles. -/
def catUD : List Record := loadCatalog [rawUp, rawDown]

/-- A two-row catalog whose two rows share the normalized title "up". -/
def catCollide : List Record := loadCatalog [rawUp, rawUP2]

/-- A 2 by 2 similarity matrix for `catUD` (integer-valued scores keep the
kernel computations exact and cheap). -/
def simUD : List (List ℚ) := [[2, 1], [1, 2]]

/-- Rows with ratings "8.5", "nan" and "9.1", the top-rated scenario of
the spec. -/
def rawR85 : RawRecord :=
  ⟨("Alpha".data), ("8.5".data), ("Drama".data), ("A A".data), ("s1".data),
    ("2001".data)⟩

/-- The "nan"-rated row of the top-rated scenario. -/
def rawRnan : RawRecord :=
  ⟨("Beta".data), ("nan".data), ("Drama".data), ("B B".data), ("s2".data),
    ("2002".data)⟩

/-- The "9.1"-rated row of the top-rated scenario. -/
def rawR91 : RawRecord :=
  ⟨("Gamma".data), ("9.1".data), ("Drama".data), ("C C".data), ("s3".data),
    ("2003".data)⟩

/-- The three-row catalog of the top-rated scenario. -/
def catRated : List Record := loadCatalog [rawR85, rawRnan, rawR91]

/-! ### Generic list helpers -/

theorem any_eq_not_isEmpty (l : List α) (p : α → Bool) (hp : ∀ a ∈ l, p a = true) :
    l.any p = !l.isEmpty := by
  cases l with
  | nil => rfl
  | cons a t => simp [hp a (List.mem_cons_self a t)]

theorem strContains_nil (s : Str) : strContains [] s = true := by
  simp [strContains]

theorem mem_dropDupTitles {l : List RawRecord} {seen : List Str} {r : RawRecord}
    (h : r ∈ dropDupTitles l seen) : r ∈ l := by
  induction l generalizing seen with
  | nil => simp [dropDupTitles] at h
  | cons a t ih =>
    by_cases ha : a.title_x ∈ seen
    · simp only [dropDupTitles, if_pos ha] at h
      exact List.mem_cons_of_mem _ (ih h)
    · simp only [dropDupTitles, if_neg ha, List.mem_cons] at h
      rcases h with h | h
      · exact h ▸ List.mem_cons_self _ _
      · exact List.mem_cons_of_mem _ (ih h)

/-! ### Claims C9, C10, C3 and C4 -/

/-- Claim C9: `search_titles` on any query whose normalized form is empty,
and `search_actors` on any query that lowercases and strips to the empty
string, return the empty sequence — the empty query short-circuits. -/
theorem search_empty_query_short_circuits (cat : List Record) (query : Str) (limit : Nat) :
    (normalize_title query = [] → search_titles cat query limit = []) ∧
    (pyStrip (lowerStr query) = [] → search_actors cat query limit = []) := by
  refine ⟨fun h => ?_, fun h => ?_⟩
  · simp [search_titles, h]
  · simp [search_actors, h]

/-- Claim C9 witness: both short-circuits hold at the literal empty query
over a concrete two-row catalog. -/
theorem search_empty_query_short_circuits_holds :
    search_titles catUD ([]) 10 = [] ∧ search_actors catUD ([]) 10 = [] :=
  ⟨(search_empty_query_short_circuits catUD ([]) 10).1 (by decide),
   (search_empty_query_short_circuits catUD ([]) 10).2 (by decide)⟩

/-- Claim C10: `get_movies_by_actor` on a name that lowercases and strips
to the empty string does not short-circuit: the empty query is a substring
of every actor token, so exactly the records with at least one actor
token come back (records with an empty actor list are excluded). -/
theorem get_movies_by_actor_empty_query (cat : List Record) (name : Str)
    (h : pyStrip (lowerStr name) = []) :
    get_movies_by_actor cat name
      = (cat.filter (fun r => !(split_multi r.actors).isEmpty)).map mkResult := by
  simp only [get_movies_by_actor, h]
  congr 1
  apply List.filter_congr
  intro r _
  rw [any_eq_not_isEmpty]
  intro a _
  exact strContains_nil _

/-- Claim C10 witness: the whitespace-only query over a concrete catalog
returns exactly the records with at least one actor token. -/
theorem get_movies_by_actor_empty_query_holds :
    get_movies_by_actor catUD ("  ".data)
      = (catUD.filter (fun r => !(split_multi r.actors).isEmpty)).map mkResult :=
  get_movies_by_actor_empty_query catUD ("  ".data) (by decide)

/-- Claim C3 (code bug): on a catalog whose display titles "Up" and "UP"
both survive display-title de-duplication and normalize to the same
`title_norm` "up", exact lookup does not silently resolve to the
first-seen row: `int(idx_by_title["up"])` receives a two-element Series
and raises `TypeError` (modelled `.error ()`), and `recommend`
propagates the error. -/
theorem collision_lookup_raises :
    best_match_index catCollide ("Up".data) = Except.error () ∧
    recommend catCollide simUD ("Up".data) 5 = Except.error () := by
  exact ⟨by decide, by decide⟩

theorem titled_filter_blank (raws : List RawRecord) :
    ((raws.filter (fun r => !allBlank r)).map
        (fun r => { r with title_x := nz r.title_x })).filter
        (fun r => !r.title_x.isEmpty)
      = (raws.map (fun r => { r with title_x := nz r.title_x })).filter
        (fun r => !r.title_x.isEmpty) := by
  induction raws with
  | nil => rfl
  | cons a t ih =>
    by_cases ha : allBlank a = true
    · have h1 : (nz a.title_x).isEmpty = true := by
        simp only [allBlank, Bool.and_eq_true] at ha
        exact ha.1.1.1.1.1
      simp [ha, h1, ih, List.filter_cons]
    · simp only [Bool.not_eq_true] at ha
      simp [ha, ih, List.filter_cons]

/-- Claim C4: every record of the indexed catalog has a non-empty title
and a non-empty combined text, and raw records whose every text field is
empty, whitespace-only or a placeholder token do not affect the indexed
catalog at all (they are excluded at load time, so they appear in no
search or recommendation result). -/
theorem indexed_records_nonblank (raws : List RawRecord) (rec : Record)
    (h : rec ∈ loadCatalog raws) :
    rec.titleX ≠ [] ∧ rec.combinedText ≠ [] ∧
      loadCatalog (raws.filter (fun r => !allBlank r)) = loadCatalog raws := by
  refine ⟨?_, ?_, ?_⟩
  · simp only [loadCatalog] at h
    rcases List.mem_filter.mp h with ⟨hmem, _⟩
    rcases List.mem_map.mp hmem with ⟨r2, hr2, rfl⟩
    have h2 := mem_dropDupTitles hr2
    rcases List.mem_filter.mp h2 with ⟨_, ht⟩
    have ht2 : r2.title_x ≠ [] := by
      intro hnil
      rw [hnil] at ht
      simp at ht
    simpa [mkRecord] using ht2
  · simp only [loadCatalog] at h
    rcases List.mem_filter.mp h with ⟨_, hc⟩
    simpa using hc
  · simp only [loadCatalog]
    rw [titled_filter_blank]

/-- Claim C4 witness: over a concrete catalog containing an all-blank raw
row, the first indexed record is non-blank and the blank row changes
nothing. -/
theorem indexed_records_nonblank_holds :
    ((loadCatalog [rawUp, rawBlank, rawDown]).getD 0 dfltRecord).titleX ≠ [] ∧
      ((loadCatalog [rawUp, rawBlank, rawDown]).getD 0 dfltRecord).combinedText ≠ [] ∧
      loadCatalog ([rawUp, rawBlank, rawDown].filter (fun r => !allBlank r))
        = loadCatalog [rawUp, rawBlank, rawDown] :=
  indexed_records_nonblank [rawUp, rawBlank, rawDown]
    ((loadCatalog [rawUp, rawBlank, rawDown]).getD 0 dfltRecord) (by decide)

/-! ### Delimiter invariance of `split_multi` (claim C6) -/

theorem isDelim_of_split (c : Char) (h : isSplitDelim c = false) : isDelim c = false := by
  simp only [isSplitDelim, Bool.or_eq_false_iff] at h
  simp [isDelim, h.1.1.1, h.1.1.2, h.1.2]

theorem pipe_of_split_not_delim (c : Char) (hs : isSplitDelim c = true)
    (hd : isDelim c = false) : c = '|' := by
  simp only [isSplitDelim, Bool.or_eq_true, beq_iff_eq] at hs
  simp only [isDelim, Bool.or_eq_false_iff, beq_eq_false_iff_ne, ne_eq] at hd
  rcases hs with ((h | h) | h) | h
  · exact absurd h hd.1.1
  · exact absurd h hd.1.2
  · exact absurd h hd.2
  · exact h

theorem sub1Aux_passthrough (t : Str) (ht : ∀ c ∈ t, isDelim c = false) (u : Str) :
    sub1Aux false (t ++ u) = t ++ sub1Aux false u := by
  induction t with
  | nil => rfl
  | cons c cs ih =>
    simp only [List.cons_append, sub1Aux, ht c (List.mem_cons_self c cs), Bool.false_eq_true,
      if_false, List.cons.injEq, true_and]
    exact ih (fun d hd => ht d (List.mem_cons_of_mem c hd))

theorem sub1Aux_flag_eq (b : Bool) (u : Str) (hu : ∀ c ∈ u.head?, isDelim c = false) :
    sub1Aux b u = sub1Aux false u := by
  cases u with
  | nil => rfl
  | cons c cs => simp [sub1Aux, hu c rfl]

theorem sub1Aux_delims (d : Str) (hd : ∀ c ∈ d, isSplitDelim c = true) (b : Bool) (u : Str)
    (hu : ∀ c ∈ u.head?, isSplitDelim c = false) :
    ∃ k, sub1Aux b (d ++ u) = List.replicate k '|' ++ sub1Aux false u ∧
      (b = false → d ≠ [] → 1 ≤ k) := by
  induction d generalizing b with
  | nil =>
    refine ⟨0, ?_, by intro _ h; exact absurd rfl h⟩
    simp only [List.nil_append, List.replicate_zero]
    exact sub1Aux_flag_eq b u (fun c hc => isDelim_of_split c (hu c hc))
  | cons c d2 ih =>
    have hc := hd c (List.mem_cons_self c d2)
    have hd2 : ∀ e ∈ d2, isSplitDelim e = true := fun e he => hd e (List.mem_cons_of_mem c he)
    by_cases hdel : isDelim c = true
    · rcases ih hd2 true with ⟨k, hk, _⟩
      cases b with
      | true =>
        refine ⟨k, ?_, fun h => Bool.noConfusion h⟩
        simpa [sub1Aux, hdel] using hk
      | false =>
        refine ⟨k + 1, ?_, fun _ _ => Nat.le_add_left 1 k⟩
        simp only [List.cons_append, sub1Aux, hdel, if_true]
        simp [hk, List.replicate_succ]
    · have hpipe : c = '|' :=
        pipe_of_split_not_delim c hc (by simpa using hdel)
      rcases ih hd2 false with ⟨k, hk, _⟩
      refine ⟨k + 1, ?_, fun _ _ => Nat.le_add_left 1 k⟩
      subst hpipe
      simp only [List.cons_append, sub1Aux, show isDelim '|' = false by decide,
        Bool.false_eq_true, if_false]
      simp [hk, List.replicate_succ]

theorem sub2Aux_passthrough (t : Str) (ht : ∀ c ∈ t, (c == '|') = false) (u : Str) :
    sub2Aux false (t ++ u) = t ++ sub2Aux false u := by
  induction t with
  | nil => rfl
  | cons c cs ih =>
    simp only [List.cons_append, sub2Aux, ht c (List.mem_cons_self c cs), Bool.false_eq_true,
      if_false, List.cons.injEq, true_and]
    exact ih (fun d hd => ht d (List.mem_cons_of_mem c hd))

theorem sub2Aux_flag_eq (b : Bool) (u : Str) (hu : ∀ c ∈ u.head?, (c == '|') = false) :
    sub2Aux b u = sub2Aux false u := by
  cases u with
  | nil => rfl
  | cons c cs => simp [sub2Aux, hu c rfl]

theorem sub2Aux_pipes_true (k : Nat) (u : Str) (hu : ∀ c ∈ u.head?, (c == '|') = false) :
    sub2Aux true (List.replicate k '|' ++ u) = sub2Aux false u := by
  induction k with
  | zero => exact sub2Aux_flag_eq true u hu
  | succ n ih =>
    simp only [List.replicate_succ, List.cons_append, sub2Aux, beq_self_eq_true, if_true]
    simpa using ih

theorem sub2Aux_pipes (k : Nat) (hk : 1 ≤ k) (u : Str)
    (hu : ∀ c ∈ u.head?, (c == '|') = false) :
    sub2Aux false (List.replicate k '|' ++ u) = '|' :: sub2Aux false u := by
  cases k with
  | zero => omega
  | succ n =>
    simp only [List.replicate_succ, List.cons_append, sub2Aux, beq_self_eq_true, if_true]
    simpa using sub2Aux_pipes_true n u hu

theorem splitOnChar_ne_nil (sep : Char) (s : Str) : splitOnChar sep s ≠ [] := by
  cases s with
  | nil => simp [splitOnChar]
  | cons a r =>
    simp only [splitOnChar]
    rcases h : splitOnChar sep r with _ | ⟨p, ps⟩ <;> by_cases ha : a == sep <;> simp [ha]

theorem splitOnChar_no_sep (sep : Char) (t : Str) (ht : ∀ c ∈ t, (c == sep) = false) :
    splitOnChar sep t = [t] := by
  induction t with
  | nil => rfl
  | cons c cs ih =>
    have h2 := ih (fun d hd => ht d (List.mem_cons_of_mem c hd))
    simp [splitOnChar, h2, ht c (List.mem_cons_self c cs)]

theorem splitOnChar_append_sep (sep : Char) (t u : Str)
    (ht : ∀ c ∈ t, (c == sep) = false) :
    splitOnChar sep (t ++ sep :: u) = t :: splitOnChar sep u := by
  induction t with
  | nil =>
    simp only [List.nil_append, splitOnChar]
    rcases h : splitOnChar sep u with _ | ⟨p, ps⟩
    · exact absurd h (splitOnChar_ne_nil sep u)
    · simp
  | cons c cs ih =>
    have h2 := ih (fun d hd => ht d (List.mem_cons_of_mem c hd))
    simp [splitOnChar, h2, ht c (List.mem_cons_self c cs)]

theorem splitOnChar_joinPipes (toks : List Str)
    (h : ∀ t ∈ toks, ∀ c ∈ t, (c == '|') = false) :
    splitOnChar '|' (joinPipes toks) = if toks = [] then [[]] else toks := by
  induction toks with
  | nil => rfl
  | cons t ts ih =>
    cases ts with
    | nil =>
      simp only [joinPipes, if_neg (by simp : (([t] : List Str)) ≠ [])]
      exact splitOnChar_no_sep '|' t (h t (List.mem_cons_self t []))
    | cons t2 ts2 =>
      have h2 := ih (fun x hx c hc => h x (List.mem_cons_of_mem t hx) c hc)
      simp only [if_neg (by simp : t2 :: ts2 ≠ [])] at h2
      simp only [joinPipes, if_neg (by simp : t :: t2 :: ts2 ≠ [])]
      rw [splitOnChar_append_sep '|' t _ (h t (List.mem_cons_self t _)), h2]

theorem trimLeft_eq_self (s : Str) (h : headNotWs s = true) : trimLeft s = s := by
  cases s with
  | nil => rfl
  | cons a t =>
    simp only [headNotWs, Bool.not_eq_true'] at h
    simp [trimLeft, List.dropWhile_cons, h]

theorem trimRight_eq_self (s : Str) (h : lastNotWs s = true) : trimRight s = s := by
  have h2 := trimLeft_eq_self s.reverse h
  unfold trimRight
  unfold trimLeft at h2
  rw [h2, List.reverse_reverse]

theorem pyStrip_eq_self (s : Str) (h1 : headNotWs s = true) (h2 : lastNotWs s = true) :
    pyStrip s = s := by
  unfold pyStrip
  rw [trimLeft_eq_self s h1, trimRight_eq_self s h2]

theorem headNotWs_append (t u : Str) (ht : t ≠ []) (h : headNotWs t = true) :
    headNotWs (t ++ u) = true := by
  cases t with
  | nil => exact absurd rfl ht
  | cons a s => simpa [headNotWs] using h

theorem lastNotWs_append (t u : Str) (hu : u ≠ []) (h : lastNotWs u = true) :
    lastNotWs (t ++ u) = true := by
  unfold lastNotWs at *
  rw [List.reverse_append]
  exact headNotWs_append u.reverse t.reverse (by simpa using hu) h

theorem headNotWs_congr (s u : Str) (h : s.head? = u.head?) : headNotWs s = headNotWs u := by
  cases s <;> cases u <;> simp_all [headNotWs, List.head?]

theorem goodToken_ne_nil (t : Str) (h : goodToken t = true) : t ≠ [] := by
  intro hnil
  subst hnil
  simp [goodToken] at h

theorem goodToken_no_delim (t : Str) (h : goodToken t = true) :
    ∀ c ∈ t, isSplitDelim c = false := by
  simp only [goodToken, Bool.and_eq_true, List.all_eq_true] at h
  intro c hc
  simpa using h.1.1.2 c hc

theorem goodToken_headNotWs (t : Str) (h : goodToken t = true) : headNotWs t = true := by
  simp only [goodToken, Bool.and_eq_true] at h
  exact h.1.2

theorem goodToken_lastNotWs (t : Str) (h : goodToken t = true) : lastNotWs t = true := by
  simp only [goodToken, Bool.and_eq_true] at h
  exact h.2

theorem goodDelim_ne_nil (d : Str) (h : goodDelim d = true) : d ≠ [] := by
  intro hnil
  subst hnil
  simp [goodDelim] at h

theorem goodDelim_all (d : Str) (h : goodDelim d = true) : ∀ c ∈ d, isSplitDelim c = true := by
  simp only [goodDelim, Bool.and_eq_true, List.all_eq_true] at h
  exact h.2

theorem renderTokens_head (t : Str) (ts ds : List Str) (h : t ≠ []) :
    (renderTokens (t :: ts) ds).head? = t.head? := by
  obtain ⟨c, cs, rfl⟩ : ∃ c cs, t = c :: cs := by
    cases t with
    | nil => exact absurd rfl h
    | cons c cs => exact ⟨c, cs, rfl⟩
  cases ts <;> cases ds <;> rfl

theorem renderTokens_cons (t : Str) (ts ds : List Str) :
    ∃ rest, renderTokens (t :: ts) ds = t ++ rest := by
  cases ts with
  | nil => exact ⟨[], by cases ds <;> simp [renderTokens]⟩
  | cons t2 ts2 =>
    cases ds with
    | nil => exact ⟨renderTokens (t2 :: ts2) [], rfl⟩
    | cons d ds2 =>
      exact ⟨d ++ renderTokens (t2 :: ts2) ds2, by simp [renderTokens, List.append_assoc]⟩

theorem renderTokens_ne_nil (t : Str) (ts ds : List Str) (h : t ≠ []) :
    renderTokens (t :: ts) ds ≠ [] := by
  rcases renderTokens_cons t ts ds with ⟨rest, hr⟩
  rw [hr]
  simp [h]

theorem renderTokens_last (toks ds : List Str) (h : toks ≠ [])
    (hg : ∀ t ∈ toks, goodToken t = true) : lastNotWs (renderTokens toks ds) = true := by
  induction toks generalizing ds with
  | nil => exact absurd rfl h
  | cons t ts ih =>
    have hgt := hg t (List.mem_cons_self t ts)
    have hlast := goodToken_lastNotWs t hgt
    cases ts with
    | nil => cases ds <;> simpa [renderTokens] using hlast
    | cons t2 ts2 =>
      have ht2 := goodToken_ne_nil t2 (hg t2 (by simp))
      have h2 := fun ds2 => ih ds2 (by simp) (fun x hx => hg x (List.mem_cons_of_mem t hx))
      cases ds with
      | nil =>
        exact lastNotWs_append t _ (renderTokens_ne_nil t2 ts2 [] ht2) (h2 [])
      | cons d ds2 =>
        have hne2 : renderTokens (t2 :: ts2) ds2 ≠ [] := renderTokens_ne_nil t2 ts2 ds2 ht2
        have hinner : lastNotWs (d ++ renderTokens (t2 :: ts2) ds2) = true :=
          lastNotWs_append d _ hne2 (h2 ds2)
        rw [show renderTokens (t :: t2 :: ts2) (d :: ds2)
          = t ++ (d ++ renderTokens (t2 :: ts2) ds2) by
            simp [renderTokens, List.append_assoc]]
        exact lastNotWs_append t _
          (fun hh => hne2 (List.append_eq_nil.mp hh).2) hinner

theorem sub_chain_joinPipes (toks ds : List Str)
    (hg : ∀ t ∈ toks, goodToken t = true)
    (hlen : ds.length + 1 = toks.length)
    (hds : ∀ d ∈ ds, goodDelim d = true) :
    sub2 (sub1 (renderTokens toks ds)) = joinPipes toks := by
  induction ds generalizing toks with
  | nil =>
    obtain ⟨t, rfl⟩ : ∃ t, toks = [t] := by
      cases toks with
      | nil => simp at hlen
      | cons t ts =>
        cases ts with
        | nil => exact ⟨t, rfl⟩
        | cons a b => simp at hlen
    have hgt := hg t (List.mem_cons_self t [])
    have hnd := goodToken_no_delim t hgt
    show sub2Aux false (sub1Aux false t) = t
    have h1 : sub1Aux false t = t := by
      simpa [sub1Aux] using
        sub1Aux_passthrough t (fun c hc => isDelim_of_split c (hnd c hc)) []
    rw [h1]
    have hpipe : ∀ c ∈ t, (c == '|') = false := by
      intro c hc
      have h3 := hnd c hc
      simp only [isSplitDelim, Bool.or_eq_false_iff] at h3
      exact h3.2
    simpa [sub2Aux] using sub2Aux_passthrough t hpipe []
  | cons d ds2 ih =>
    obtain ⟨t, t2, ts2, rfl⟩ : ∃ t t2 ts2, toks = t :: t2 :: ts2 := by
      cases toks with
      | nil => simp at hlen
      | cons t ts =>
        cases ts with
        | nil => simp at hlen
        | cons t2 ts2 => exact ⟨t, t2, ts2, rfl⟩
    have hgt := hg t (by simp)
    have hgt2 := hg t2 (by simp)
    have hdd := hds d (by simp)
    have ht2ne := goodToken_ne_nil t2 hgt2
    have hTdelim : ∀ c ∈ t, isDelim c = false :=
      fun c hc => isDelim_of_split c (goodToken_no_delim t hgt c hc)
    have hTpipe : ∀ c ∈ t, (c == '|') = false := by
      intro c hc
      have h3 := goodToken_no_delim t hgt c hc
      simp only [isSplitDelim, Bool.or_eq_false_iff] at h3
      exact h3.2
    have hih := ih (t2 :: ts2) (fun x hx => hg x (List.mem_cons_of_mem t hx))
      (by simpa using hlen) (fun x hx => hds x (List.mem_cons_of_mem d hx))
    have hheadR : ∀ c ∈ (renderTokens (t2 :: ts2) ds2).head?, isSplitDelim c = false := by
      intro c hc
      rw [renderTokens_head t2 ts2 ds2 ht2ne] at hc
      have hmem : c ∈ t2 := by
        cases t2 with
        | nil => simp at hc
        | cons a s =>
          simp only [List.head?_cons, Option.mem_def, Option.some.injEq] at hc
          subst hc
          exact List.mem_cons_self a s
      exact goodToken_no_delim t2 hgt2 c hmem
    obtain ⟨rest, hrest⟩ := renderTokens_cons t2 ts2 ds2
    have hheadS : ∀ c ∈ (sub1Aux false (renderTokens (t2 :: ts2) ds2)).head?,
        (c == '|') = false := by
      intro c hc
      rw [hrest, sub1Aux_passthrough t2
        (fun e he => isDelim_of_split e (goodToken_no_delim t2 hgt2 e he)) rest] at hc
      have hmem : c ∈ t2 := by
        cases t2 with
        | nil => exact absurd rfl ht2ne
        | cons a s =>
          simp only [List.cons_append, List.head?_cons, Option.mem_def,
            Option.some.injEq] at hc
          subst hc
          exact List.mem_cons_self a s
      have h3 := goodToken_no_delim t2 hgt2 c hmem
      simp only [isSplitDelim, Bool.or_eq_false_iff] at h3
      exact h3.2
    show sub2Aux false (sub1Aux false
      (renderTokens (t :: t2 :: ts2) (d :: ds2))) = joinPipes (t :: t2 :: ts2)
    have hrender : renderTokens (t :: t2 :: ts2) (d :: ds2)
        = t ++ (d ++ renderTokens (t2 :: ts2) ds2) := by
      simp [renderTokens]
    rw [hrender, sub1Aux_passthrough t hTdelim (d ++ renderTokens (t2 :: ts2) ds2)]
    obtain ⟨k, hk, hk1⟩ := sub1Aux_delims d (goodDelim_all d hdd) false
      (renderTokens (t2 :: ts2) ds2) hheadR
    rw [hk, sub2Aux_passthrough t hTpipe _,
      sub2Aux_pipes k (hk1 rfl (goodDelim_ne_nil d hdd)) _ hheadS]
    have hih2 : sub2Aux false (sub1Aux false (renderTokens (t2 :: ts2) ds2))
        = joinPipes (t2 :: ts2) := hih
    rw [hih2]
    rfl

theorem map_pyStrip_id (l : List Str) (h : ∀ x ∈ l, goodToken x = true) :
    l.map pyStrip = l := by
  induction l with
  | nil => rfl
  | cons x xs ih =>
    have hx := h x (by simp)
    simp [pyStrip_eq_self x (goodToken_headNotWs x hx) (goodToken_lastNotWs x hx),
      ih (fun y hy => h y (List.mem_cons_of_mem x hy))]

theorem not_isEmpty_of_ne_nil {a : Str} (h : a ≠ []) : (!a.isEmpty) = true := by
  cases a with
  | nil => exact absurd rfl h
  | cons x xs => rfl

/-- Claim C6: two strings built from the same token sequence, differing
only in which of the separators `;`, `,`, `/`, `|` stand between the
tokens and in how many consecutive separators each gap holds, split to
the identical token sequence: `split_multi` of any such rendering is the
token list itself. (The tokens must be non-empty, trimmed and free of the
four separator characters, and the whole string must not spell a
placeholder token.) -/
theorem split_multi_delim_invariant (toks ds : List Str)
    (hne : toks ≠ []) (hg : ∀ t ∈ toks, goodToken t = true)
    (hlen : ds.length + 1 = toks.length) (hds : ∀ d ∈ ds, goodDelim d = true)
    (hph : lowerStr (renderTokens toks ds) ∉ placeholders) :
    split_multi (renderTokens toks ds) = toks := by
  obtain ⟨t, ts, rfl⟩ : ∃ t ts, toks = t :: ts := by
    cases toks with
    | nil => exact absurd rfl hne
    | cons t ts => exact ⟨t, ts, rfl⟩
  have hgt := hg t (by simp)
  have htne := goodToken_ne_nil t hgt
  have hRne : renderTokens (t :: ts) ds ≠ [] := renderTokens_ne_nil t ts ds htne
  have hhead : headNotWs (renderTokens (t :: ts) ds) = true := by
    rw [headNotWs_congr _ t (renderTokens_head t ts ds htne)]
    exact goodToken_headNotWs t hgt
  have hlast : lastNotWs (renderTokens (t :: ts) ds) = true :=
    renderTokens_last (t :: ts) ds (by simp) hg
  have hnz : nz (renderTokens (t :: ts) ds) = renderTokens (t :: ts) ds := by
    unfold nz
    rw [pyStrip_eq_self _ hhead hlast, if_neg hph]
  simp only [split_multi]
  rw [hnz, if_neg hRne, sub_chain_joinPipes (t :: ts) ds hg hlen hds,
    splitOnChar_joinPipes (t :: ts) ?pipes, if_neg (by simp : t :: ts ≠ []),
    map_pyStrip_id (t :: ts) hg,
    List.filter_eq_self.mpr (fun a ha => not_isEmpty_of_ne_nil (goodToken_ne_nil a (hg a ha)))]
  case pipes =>
    intro x hx c hc
    have h3 := goodToken_no_delim x (hg x hx) c hc
    simp only [isSplitDelim, Bool.or_eq_false_iff] at h3
    exact h3.2

/-- Claim C6 witness: the spec's concrete pair, `"A;B,C/D"` and
`"A|B|C|D"`, both split to the four-token sequence. -/
theorem split_multi_delim_invariant_holds :
    split_multi ("A;B,C/D".data) = [("A".data), ("B".data), ("C".data), ("D".data)] ∧
    split_multi ("A|B|C|D".data) = [("A".data), ("B".data), ("C".data), ("D".data)] := by
  constructor
  · have h := split_multi_delim_invariant
      [("A".data), ("B".data), ("C".data), ("D".data)]
      [(";".data), (",".data), ("/".data)]
      (by decide) (by decide) (by decide) (by decide) (by decide)
    rw [(by decide : renderTokens [("A".data), ("B".data), ("C".data), ("D".data)]
      [(";".data), (",".data), ("/".data)] = ("A;B,C/D".data))] at h
    exact h
  · have h := split_multi_delim_invariant
      [("A".data), ("B".data), ("C".data), ("D".data)]
      [("|".data), ("|".data), ("|".data)]
      (by decide) (by decide) (by decide) (by decide) (by decide)
    rw [(by decide : renderTokens [("A".data), ("B".data), ("C".data), ("D".data)]
      [("|".data), ("|".data), ("|".data)] = ("A|B|C|D".data))] at h
    exact h

/-! ### Idempotence of title normalization (claim C7) -/

theorem char_toNat_ofNat (m : Nat) (h : m.isValidChar) : (Char.ofNat m).toNat = m := by
  rw [Char.ofNat, dif_pos h]
  simp [Char.ofNatAux, Char.toNat, UInt32.toNat, BitVec.toNat_ofNatLt]

theorem toLower_idem (c : Char) : c.toLower.toLower = c.toLower := by
  by_cases h : c.toNat ≥ 65 ∧ c.toNat ≤ 90
  · have hv : (c.toNat + 32).isValidChar := by left; omega
    have h1 : c.toLower = Char.ofNat (c.toNat + 32) := by rw [Char.toLower, if_pos h]
    have h2 : (Char.ofNat (c.toNat + 32)).toNat = c.toNat + 32 := char_toNat_ofNat _ hv
    rw [h1, Char.toLower, if_neg]
    rw [h2]
    omega
  · have h1 : c.toLower = c := by rw [Char.toLower, if_neg h]
    rw [h1, h1]

theorem pyIsSpace_false_of_ge (m : Nat) (hm : 65 ≤ m) :
    (m == 32 || m == 9 || m == 10 || m == 11 || m == 12 || m == 13) = false := by
  simp only [Bool.or_eq_false_iff, beq_eq_false_iff_ne, ne_eq]
  omega

theorem pyIsSpace_toLower (c : Char) : pyIsSpace c.toLower = pyIsSpace c := by
  by_cases h : c.toNat ≥ 65 ∧ c.toNat ≤ 90
  · have hv : (c.toNat + 32).isValidChar := by left; omega
    have h1 : c.toLower = Char.ofNat (c.toNat + 32) := by rw [Char.toLower, if_pos h]
    have h2 : (Char.ofNat (c.toNat + 32)).toNat = c.toNat + 32 := char_toNat_ofNat _ hv
    rw [h1]
    simp only [pyIsSpace, h2]
    rw [pyIsSpace_false_of_ge (c.toNat + 32) (by omega),
      pyIsSpace_false_of_ge c.toNat (by omega)]
  · rw [Char.toLower, if_neg h]

theorem lastNotWs_cons (x : Char) (xs : Str) (h : xs ≠ []) :
    lastNotWs (x :: xs) = lastNotWs xs := by
  unfold lastNotWs
  rw [List.reverse_cons]
  apply headNotWs_congr
  cases hx : xs.reverse with
  | nil => exact absurd (by simpa using hx) h
  | cons a b => simp [hx]

theorem mem_collapseWsAux {c : Char} (s : Str) :
    ∀ b, c ∈ collapseWsAux b s → c = ' ' ∨ (c ∈ s ∧ pyIsSpace c = false) := by
  induction s with
  | nil => intro b h; simp [collapseWsAux] at h
  | cons x xs ih =>
    intro b h
    by_cases hx : pyIsSpace x = true
    · cases b with
      | true =>
        rw [show collapseWsAux true (x :: xs) = collapseWsAux true xs by
          simp [collapseWsAux, hx]] at h
        rcases ih true h with h3 | ⟨h4, h5⟩
        · exact Or.inl h3
        · exact Or.inr ⟨List.mem_cons_of_mem x h4, h5⟩
      | false =>
        rw [show collapseWsAux false (x :: xs) = ' ' :: collapseWsAux true xs by
          simp [collapseWsAux, hx]] at h
        rcases List.mem_cons.mp h with rfl | h2
        · exact Or.inl rfl
        · rcases ih true h2 with h3 | ⟨h4, h5⟩
          · exact Or.inl h3
          · exact Or.inr ⟨List.mem_cons_of_mem x h4, h5⟩
    · rw [show collapseWsAux b (x :: xs) = x :: collapseWsAux false xs by
        simp [collapseWsAux, hx]] at h
      rcases List.mem_cons.mp h with rfl | h2
      · exact Or.inr ⟨List.mem_cons_self _ _, by simpa using hx⟩
      · rcases ih false h2 with h3 | ⟨h4, h5⟩
        · exact Or.inl h3
        · exact Or.inr ⟨List.mem_cons_of_mem x h4, h5⟩

theorem headNotWs_collapseWsAux_true (s : Str) : headNotWs (collapseWsAux true s) = true := by
  induction s with
  | nil => rfl
  | cons x xs ih =>
    by_cases hx : pyIsSpace x = true
    · rw [show collapseWsAux true (x :: xs) = collapseWsAux true xs by
        simp [collapseWsAux, hx]]
      exact ih
    · rw [show collapseWsAux true (x :: xs) = x :: collapseWsAux false xs by
        simp [collapseWsAux, hx]]
      simpa [headNotWs] using hx

theorem headNotWs_collapseWsAux_false (s : Str) (h : headNotWs s = true) :
    headNotWs (collapseWsAux false s) = true := by
  cases s with
  | nil => rfl
  | cons x xs =>
    simp only [headNotWs, Bool.not_eq_true'] at h
    rw [show collapseWsAux false (x :: xs) = x :: collapseWsAux false xs by
      simp [collapseWsAux, h]]
    simpa [headNotWs] using h

theorem chain_collapseWsAux (s : Str) :
    ∀ b, List.Chain' (fun a c => pyIsSpace a = false ∨ pyIsSpace c = false)
      (collapseWsAux b s) := by
  induction s with
  | nil => intro b; simp [collapseWsAux]
  | cons x xs ih =>
    intro b
    by_cases hx : pyIsSpace x = true
    · cases b with
      | true =>
        rw [show collapseWsAux true (x :: xs) = collapseWsAux true xs by
          simp [collapseWsAux, hx]]
        exact ih true
      | false =>
        rw [show collapseWsAux false (x :: xs) = ' ' :: collapseWsAux true xs by
          simp [collapseWsAux, hx]]
        rw [List.chain'_cons']
        refine ⟨?_, ih true⟩
        intro y hy
        right
        have hh := headNotWs_collapseWsAux_true xs
        cases hcx : collapseWsAux true xs with
        | nil => rw [hcx] at hy; simp at hy
        | cons a t =>
          rw [hcx] at hy
          simp only [List.head?_cons, Option.mem_def, Option.some.injEq] at hy
          subst hy
          rw [hcx] at hh
          simpa [headNotWs] using hh
    · rw [show collapseWsAux b (x :: xs) = x :: collapseWsAux false xs by
        simp [collapseWsAux, hx]]
      rw [List.chain'_cons']
      refine ⟨fun y _ => Or.inl (by simpa using hx), ih false⟩

theorem collapseWsAux_flag_eq (u : Str) (hu : headNotWs u = true) :
    collapseWsAux true u = collapseWsAux false u := by
  cases u with
  | nil => rfl
  | cons x xs =>
    simp only [headNotWs, Bool.not_eq_true'] at hu
    simp [collapseWsAux, hu]

theorem collapseWsAux_fix (s : Str)
    (h1 : ∀ c ∈ s, pyIsSpace c = true → c = ' ')
    (h2 : List.Chain' (fun a c => pyIsSpace a = false ∨ pyIsSpace c = false) s) :
    collapseWsAux false s = s := by
  induction s with
  | nil => rfl
  | cons x xs ih =>
    rcases List.chain'_cons'.mp h2 with ⟨hhead, htail⟩
    by_cases hx : pyIsSpace x = true
    · have hxsp : x = ' ' := h1 x (List.mem_cons_self x xs) hx
      rw [show collapseWsAux false (x :: xs) = ' ' :: collapseWsAux true xs by
        simp [collapseWsAux, hx]]
      have hxs : headNotWs xs = true := by
        cases xs with
        | nil => rfl
        | cons a t =>
          rcases hhead a rfl with ha | ha
          · rw [hx] at ha; exact absurd ha (by simp)
          · simpa [headNotWs] using ha
      rw [collapseWsAux_flag_eq xs hxs,
        ih (fun c hc hw => h1 c (List.mem_cons_of_mem x hc) hw) htail, hxsp]
    · rw [show collapseWsAux false (x :: xs) = x :: collapseWsAux false xs by
        simp [collapseWsAux, hx]]
      rw [ih (fun c hc hw => h1 c (List.mem_cons_of_mem x hc) hw) htail]

theorem collapseWsAux_no_ws_eq (s : Str)
    (h : ∀ c ∈ collapseWsAux false s, pyIsSpace c = false) :
    collapseWsAux false s = s := by
  induction s with
  | nil => rfl
  | cons x xs ih =>
    by_cases hx : pyIsSpace x = true
    · exfalso
      have hmem : (' ' : Char) ∈ collapseWsAux false (x :: xs) := by
        rw [show collapseWsAux false (x :: xs) = ' ' :: collapseWsAux true xs by
          simp [collapseWsAux, hx]]
        exact List.mem_cons_self _ _
      have := h ' ' hmem
      simp [pyIsSpace] at this
    · rw [show collapseWsAux false (x :: xs) = x :: collapseWsAux false xs by
        simp [collapseWsAux, hx]] at h ⊢
      rw [ih (fun c hc => h c (List.mem_cons_of_mem x hc))]

theorem collapseWsAux_lastNotWs (s : Str) (hne : s ≠ []) (h : lastNotWs s = true) :
    ∀ b, lastNotWs (collapseWsAux b s) = true ∧ collapseWsAux b s ≠ [] := by
  induction s with
  | nil => exact absurd rfl hne
  | cons x xs ih =>
    intro b
    cases hxs : xs with
    | nil =>
      subst hxs
      have hx : pyIsSpace x = false := by
        unfold lastNotWs at h
        simpa [headNotWs] using h
      constructor
      · rw [show collapseWsAux b [x] = [x] by simp [collapseWsAux, hx]]
        unfold lastNotWs
        simpa [headNotWs] using hx
      · rw [show collapseWsAux b [x] = [x] by simp [collapseWsAux, hx]]
        simp
    | cons a t =>
      have hxs2 : xs ≠ [] := by rw [hxs]; simp
      rw [← hxs] at *
      have hlxs : lastNotWs xs = true := by rw [← lastNotWs_cons x xs hxs2]; exact h
      have ihx := ih hxs2 hlxs
      by_cases hx : pyIsSpace x = true
      · cases b with
        | true =>
          rw [show collapseWsAux true (x :: xs) = collapseWsAux true xs by
            simp [collapseWsAux, hx]]
          exact ihx true
        | false =>
          rw [show collapseWsAux false (x :: xs) = ' ' :: collapseWsAux true xs by
            simp [collapseWsAux, hx]]
          refine ⟨?_, by simp⟩
          rw [lastNotWs_cons ' ' _ (ihx true).2]
          exact (ihx true).1
      · rw [show collapseWsAux b (x :: xs) = x :: collapseWsAux false xs by
          simp [collapseWsAux, hx]]
        refine ⟨?_, by simp⟩
        rw [lastNotWs_cons x _ (ihx false).2]
        exact (ihx false).1

theorem headNotWs_dropWhile (s : Str) : headNotWs (s.dropWhile pyIsSpace) = true := by
  induction s with
  | nil => rfl
  | cons x xs ih =>
    by_cases hx : pyIsSpace x = true
    · rw [List.dropWhile_cons, if_pos hx]
      exact ih
    · rw [List.dropWhile_cons, if_neg hx]
      simpa [headNotWs] using hx

theorem trimRight_isPrefixOf (s : Str) : trimRight s <+: s := by
  apply List.reverse_suffix.mp
  rw [trimRight, List.reverse_reverse]
  exact List.dropWhile_suffix pyIsSpace

theorem lastNotWs_trimRight (s : Str) : lastNotWs (trimRight s) = true := by
  unfold lastNotWs trimRight
  rw [List.reverse_reverse]
  exact headNotWs_dropWhile s.reverse

theorem headNotWs_prefix (l1 l2 : Str) (h : l1 <+: l2) (h2 : headNotWs l2 = true) :
    headNotWs l1 = true := by
  rcases h with ⟨t, rfl⟩
  cases l1 with
  | nil => rfl
  | cons a s => simpa [headNotWs] using h2

theorem headNotWs_pyStrip (s : Str) : headNotWs (pyStrip s) = true :=
  headNotWs_prefix _ _ (trimRight_isPrefixOf (trimLeft s)) (headNotWs_dropWhile s)

theorem lastNotWs_pyStrip (s : Str) : lastNotWs (pyStrip s) = true :=
  lastNotWs_trimRight (trimLeft s)

theorem mem_pyStrip {c : Char} (s : Str) (h : c ∈ pyStrip s) : c ∈ s :=
  (List.dropWhile_suffix pyIsSpace).subset ((trimRight_isPrefixOf (trimLeft s)).subset h)

theorem chain_pyStrip {R : Char → Char → Prop} (s : Str) (h : List.Chain' R s) :
    List.Chain' R (pyStrip s) :=
  List.Chain'.prefix (List.Chain'.suffix h (List.dropWhile_suffix pyIsSpace))
    (trimRight_isPrefixOf (trimLeft s))

theorem headNotWs_lowerStr (s : Str) : headNotWs (lowerStr s) = headNotWs s := by
  cases s with
  | nil => rfl
  | cons a t => simp [lowerStr, headNotWs, pyIsSpace_toLower]

theorem lastNotWs_lowerStr (s : Str) : lastNotWs (lowerStr s) = lastNotWs s := by
  unfold lastNotWs
  rw [show (lowerStr s).reverse = lowerStr s.reverse by simp [lowerStr, List.map_reverse]]
  exact headNotWs_lowerStr s.reverse

theorem placeholders_no_ws (y : Str) (h : y ∈ placeholders) :
    ∀ c ∈ y, pyIsSpace c = false := by
  simp only [placeholders, List.mem_cons, List.not_mem_nil, or_false] at h
  rcases h with rfl | rfl | rfl <;> decide

theorem normalize_title_nil : normalize_title [] = [] := by decide

theorem nz_cases (x : Str) :
    nz x = [] ∨ (nz x = pyStrip x ∧ lowerStr (pyStrip x) ∉ placeholders) := by
  by_cases h : lowerStr (pyStrip x) ∈ placeholders
  · left
    simp [nz, h]
  · right
    exact ⟨by simp [nz, h], h⟩

theorem normalize_fix (y : Str)
    (h1 : ∀ c ∈ y, pyIsSpace c = true → c = ' ')
    (h2 : List.Chain' (fun a c => pyIsSpace a = false ∨ pyIsSpace c = false) y)
    (h3 : headNotWs y = true) (h4 : lastNotWs y = true)
    (h5 : lowerStr y = y) (h6 : y ∉ placeholders) :
    normalize_title y = y := by
  have hnzy : nz y = y := by
    simp only [nz]
    rw [pyStrip_eq_self y h3 h4, h5, if_neg h6]
  unfold normalize_title collapseWs
  rw [hnzy, h5, collapseWsAux_fix y h1 h2, pyStrip_eq_self y h3 h4]

theorem normalize_fix_of (m : Str) (hmne : m ≠ [])
    (hmh : headNotWs m = true) (hml : lastNotWs m = true)
    (hlow : ∀ c ∈ m, Char.toLower c = c)
    (hph2 : m ∉ placeholders) :
    normalize_title (pyStrip (collapseWsAux false m))
      = pyStrip (collapseWsAux false m) := by
  apply normalize_fix
  · intro c hc hw
    rcases mem_collapseWsAux m false (mem_pyStrip _ hc) with h' | ⟨_, hns⟩
    · exact h'
    · rw [hw] at hns
      exact absurd hns (by simp)
  · exact chain_pyStrip _ (chain_collapseWsAux m false)
  · exact headNotWs_pyStrip _
  · exact lastNotWs_pyStrip _
  · have hfix : ∀ c ∈ pyStrip (collapseWsAux false m), Char.toLower c = c := by
      intro c hc
      rcases mem_collapseWsAux m false (mem_pyStrip _ hc) with rfl | ⟨hcm, _⟩
      · decide
      · exact hlow c hcm
    simp only [lowerStr]
    rw [List.map_congr_left hfix]
    exact List.map_id' _
  · intro hin
    have hyow := placeholders_no_ws _ hin
    have hch := headNotWs_collapseWsAux_false m hmh
    have hcl := collapseWsAux_lastNotWs m hmne hml false
    have hyc : pyStrip (collapseWsAux false m) = collapseWsAux false m :=
      pyStrip_eq_self _ hch hcl.1
    have hcolm : collapseWsAux false m = m := by
      apply collapseWsAux_no_ws_eq
      rw [← hyc]
      exact hyow
    apply hph2
    rw [← hcolm, ← hyc]
    exact hin

/-- Claim C7: title normalization is idempotent — normalizing an already
normalized title changes nothing, for every input string. -/
theorem normalize_title_idem (x : Str) :
    normalize_title (normalize_title x) = normalize_title x := by
  rcases nz_cases x with h | ⟨h, hph⟩
  · have hx : normalize_title x = [] := by
      unfold normalize_title
      rw [h]
      rfl
    rw [hx, normalize_title_nil]
  · by_cases hm : pyStrip x = []
    · have hx : normalize_title x = [] := by
        unfold normalize_title
        rw [h, hm]
        rfl
      rw [hx, normalize_title_nil]
    · have hxdef : normalize_title x = pyStrip (collapseWsAux false (lowerStr (pyStrip x))) := by
        unfold normalize_title collapseWs
        rw [h]
      rw [hxdef]
      have hmne : lowerStr (pyStrip x) ≠ [] := by
        intro hnil
        apply hm
        cases hx2 : pyStrip x with
        | nil => rfl
        | cons a t => rw [hx2] at hnil; simp [lowerStr] at hnil
      apply normalize_fix_of (lowerStr (pyStrip x)) hmne
      · rw [headNotWs_lowerStr]
        exact headNotWs_pyStrip x
      · rw [lastNotWs_lowerStr]
        exact lastNotWs_pyStrip x
      · intro c hc
        rcases List.mem_map.mp hc with ⟨d, _, rfl⟩
        exact toLower_idem d
      · exact hph


/-! ### Stable sort, enumeration and selection lemmas (claims C1 and C2) -/

theorem insertSorted_perm (le : α → α → Bool) (a : α) (l : List α) :
    List.Perm (insertSorted le a l) (a :: l) := by
  induction l with
  | nil => exact List.Perm.refl _
  | cons b t ih =>
    by_cases h : le a b = true
    · rw [show insertSorted le a (b :: t) = a :: b :: t by simp [insertSorted, h]]
    · rw [show insertSorted le a (b :: t) = b :: insertSorted le a t by
        simp [insertSorted, h]]
      exact (ih.cons b).trans (List.Perm.swap a b t)

theorem stableSort_perm (le : α → α → Bool) (l : List α) :
    List.Perm (stableSort le l) l := by
  induction l with
  | nil => exact List.Perm.refl _
  | cons x xs ih => exact (insertSorted_perm le x (stableSort le xs)).trans (ih.cons x)

theorem mem_insertSorted (le : α → α → Bool) (a x : α) (l : List α) :
    x ∈ insertSorted le a l ↔ x = a ∨ x ∈ l := by
  rw [(insertSorted_perm le a l).mem_iff]
  simp

theorem pairwise_insertSorted (le : α → α → Bool)
    (htot : ∀ a b, le a b = true ∨ le b a = true)
    (htrans : ∀ a b c, le a b = true → le b c = true → le a c = true)
    (a : α) (l : List α) (h : l.Pairwise (fun x y => le x y = true)) :
    (insertSorted le a l).Pairwise (fun x y => le x y = true) := by
  induction l with
  | nil => simp [insertSorted]
  | cons b t ih =>
    rcases List.pairwise_cons.mp h with ⟨hb, ht⟩
    by_cases hab : le a b = true
    · rw [show insertSorted le a (b :: t) = a :: b :: t by simp [insertSorted, hab]]
      refine List.pairwise_cons.mpr ⟨?_, h⟩
      intro y hy
      rcases List.mem_cons.mp hy with rfl | hy2
      · exact hab
      · exact htrans a b y hab (hb y hy2)
    · rw [show insertSorted le a (b :: t) = b :: insertSorted le a t by
        simp [insertSorted, hab]]
      refine List.pairwise_cons.mpr ⟨?_, ih ht⟩
      intro y hy
      rcases (mem_insertSorted le a y t).mp hy with rfl | hy2
      · rcases htot y b with h1 | h1
        · exact absurd h1 hab
        · exact h1
      · exact hb y hy2

theorem stableSort_pairwise (le : α → α → Bool)
    (htot : ∀ a b, le a b = true ∨ le b a = true)
    (htrans : ∀ a b c, le a b = true → le b c = true → le a c = true)
    (l : List α) : (stableSort le l).Pairwise (fun x y => le x y = true) := by
  induction l with
  | nil => simp [stableSort]
  | cons x xs ih => exact pairwise_insertSorted le htot htrans x _ ih

theorem sublist_insertSorted (le : α → α → Bool) (a : α) (l : List α) :
    List.Sublist l (insertSorted le a l) := by
  induction l with
  | nil => exact List.nil_sublist _
  | cons b t ih =>
    by_cases h : le a b = true
    · rw [show insertSorted le a (b :: t) = a :: b :: t by simp [insertSorted, h]]
      exact List.Sublist.cons a (List.Sublist.refl _)
    · rw [show insertSorted le a (b :: t) = b :: insertSorted le a t by
        simp [insertSorted, h]]
      exact List.Sublist.cons₂ b ih

theorem pair_sublist_insertSorted (le : α → α → Bool) {x b : α} {l : List α}
    (hxb : le x b = true) (hb : b ∈ l) :
    List.Sublist [x, b] (insertSorted le x l) := by
  induction l with
  | nil => simp at hb
  | cons c t ih =>
    by_cases h : le x c = true
    · rw [show insertSorted le x (c :: t) = x :: c :: t by simp [insertSorted, h]]
      exact List.Sublist.cons₂ x (List.singleton_sublist.mpr hb)
    · rw [show insertSorted le x (c :: t) = c :: insertSorted le x t by
        simp [insertSorted, h]]
      rcases List.mem_cons.mp hb with rfl | hb2
      · exact absurd hxb h
      · exact List.Sublist.cons c (ih hb2)

theorem stableSort_stable_pair (le : α → α → Bool) {a b : α} {l : List α}
    (hab : le a b = true) (h : List.Sublist [a, b] l) :
    List.Sublist [a, b] (stableSort le l) := by
  induction l with
  | nil => exact absurd (List.sublist_nil.mp h) (by simp)
  | cons x xs ih =>
    cases h with
    | cons _ h2 =>
      exact (ih h2).trans (sublist_insertSorted le x (stableSort le xs))
    | cons₂ _ h2 =>
      have hb : b ∈ stableSort le xs :=
        ((stableSort_perm le xs).mem_iff).mpr (List.singleton_sublist.mp h2)
      exact pair_sublist_insertSorted le hab hb

theorem mem_enumFrom {i : Nat} {q : α} (l : List α) (d : α) :
    ∀ n, (i, q) ∈ enumFrom n l → n ≤ i ∧ i < n + l.length ∧ l.getD (i - n) d = q := by
  induction l with
  | nil => intro n h; simp [enumFrom] at h
  | cons a t ih =>
    intro n h
    rcases List.mem_cons.mp h with h1 | h2
    · injection h1 with h1a h1b
      subst h1a
      subst h1b
      refine ⟨Nat.le_refl _, ?_, by simp⟩
      rw [List.length_cons]
      omega
    · rcases ih (n + 1) h2 with ⟨ha, hb, hc⟩
      rw [List.length_cons] at *
      refine ⟨by omega, by omega, ?_⟩
      have hsub : i - n = (i - (n + 1)) + 1 := by omega
      rw [hsub, List.getD_cons_succ]
      exact hc

theorem enumFrom_mem_of_lt (l : List α) (d : α) :
    ∀ n j, j < l.length → (n + j, l.getD j d) ∈ enumFrom n l := by
  induction l with
  | nil => intro n j h; simp at h
  | cons a t ih =>
    intro n j h
    cases j with
    | zero => simp [enumFrom]
    | succ k =>
      have h2 := ih (n + 1) k (by simpa using h)
      rw [List.getD_cons_succ]
      refine List.mem_cons_of_mem _ ?_
      have heq : n + (k + 1) = (n + 1) + k := by omega
      rw [heq]
      exact h2

theorem pairwise_lt_enumFrom (l : List α) : ∀ n,
    (enumFrom n l).Pairwise (fun p q => p.1 < q.1) := by
  induction l with
  | nil => intro n; simp [enumFrom]
  | cons a t ih =>
    intro n
    refine List.pairwise_cons.mpr ⟨?_, ih (n + 1)⟩
    intro q hq
    rcases q with ⟨j, y⟩
    have h1 := (mem_enumFrom t a (n + 1) hq).1
    simp only []
    omega

theorem nodup_enumFrom (l : List α) (n : Nat) : (enumFrom n l).Nodup := by
  refine (pairwise_lt_enumFrom l n).imp ?_
  intro p q h heq
  rw [heq] at h
  exact Nat.lt_irrefl _ h

theorem pair_sublist_enumFrom {p q : Nat × α} (l : List α) :
    ∀ n, p ∈ enumFrom n l → q ∈ enumFrom n l → p.1 < q.1 →
      List.Sublist [p, q] (enumFrom n l) := by
  induction l with
  | nil => intro n hp; simp [enumFrom] at hp
  | cons a t ih =>
    intro n hp hq hlt
    rcases List.mem_cons.mp hp with rfl | hp2
    · rcases List.mem_cons.mp hq with h1 | hq2
      · rw [h1] at hlt
        exact absurd hlt (Nat.lt_irrefl _)
      · exact List.Sublist.cons₂ _ (List.singleton_sublist.mpr hq2)
    · rcases List.mem_cons.mp hq with rfl | hq2
      · have h1 := (mem_enumFrom t a (n + 1) hp2).1
        exact absurd hlt (by omega)
      · exact List.Sublist.cons _ (ih (n + 1) hp2 hq2 hlt)

theorem sublist_pair_asymm {p q : α} : ∀ (S : List α), S.Nodup →
    List.Sublist [p, q] S → List.Sublist [q, p] S → p = q := by
  intro S
  induction S with
  | nil => intro _ h1; exact absurd (List.sublist_nil.mp h1) (by simp)
  | cons x T ih =>
    intro hnd h1 h2
    rcases List.nodup_cons.mp hnd with ⟨hx, hT⟩
    cases h1 with
    | cons _ h1b =>
      cases h2 with
      | cons _ h2b => exact ih hT h1b h2b
      | cons₂ _ h2b =>
        exact absurd (h1b.subset (by simp)) hx
    | cons₂ _ h1b =>
      cases h2 with
      | cons _ h2b =>
        exact absurd (h2b.subset (by simp)) hx
      | cons₂ _ h2b => rfl

theorem pickLoop_decomp (idx n : Nat) :
    ∀ (sims : List (Nat × ℚ)) (acc : List Nat), ∃ picked,
      pickLoop sims idx n acc = acc ++ picked ∧
      List.Sublist picked (sims.map Prod.fst) ∧ idx ∉ picked := by
  intro sims
  induction sims with
  | nil => intro acc; exact ⟨[], by simp [pickLoop], List.nil_sublist _, by simp⟩
  | cons is rest ih =>
    intro acc
    rcases is with ⟨i, s⟩
    by_cases hi : i = idx
    · rcases ih acc with ⟨picked, h1, h2, h3⟩
      exact ⟨picked, by simpa [pickLoop, hi] using h1, List.Sublist.cons i h2, h3⟩
    · have hlen : (acc ++ [i]).length = acc.length + 1 := by simp
      by_cases hstop : n ≤ acc.length + 1
      · refine ⟨[i], ?_, ?_, by simpa using fun h => hi h.symm⟩
        · simp [pickLoop, hi, hlen, hstop]
        · exact List.Sublist.cons₂ i (List.nil_sublist _)
      · rcases ih (acc ++ [i]) with ⟨picked, h1, h2, h3⟩
        refine ⟨i :: picked, ?_, List.Sublist.cons₂ i h2, ?_⟩
        · rw [show pickLoop ((i, s) :: rest) idx n acc = pickLoop rest idx n (acc ++ [i]) by
            simp [pickLoop, hi, hlen, hstop]]
          rw [h1]
          simp
        · intro hmem
          rcases List.mem_cons.mp hmem with rfl | hmem2
          · exact hi rfl
          · exact h3 hmem2

theorem pickLoop_length (idx n : Nat) :
    ∀ (sims : List (Nat × ℚ)) (acc : List Nat), acc.length < n →
      (pickLoop sims idx n acc).length ≤ n := by
  intro sims
  induction sims with
  | nil => intro acc h; simpa [pickLoop] using Nat.le_of_lt h
  | cons is rest ih =>
    intro acc h
    rcases is with ⟨i, s⟩
    by_cases hi : i = idx
    · rw [show pickLoop ((i, s) :: rest) idx n acc = pickLoop rest idx n acc by
        simp [pickLoop, hi]]
      exact ih acc h
    · have hlen : (acc ++ [i]).length = acc.length + 1 := by simp
      by_cases hstop : n ≤ acc.length + 1
      · rw [show pickLoop ((i, s) :: rest) idx n acc = acc ++ [i] by
          simp [pickLoop, hi, hlen, hstop]]
        rw [hlen]
        omega
      · rw [show pickLoop ((i, s) :: rest) idx n acc = pickLoop rest idx n (acc ++ [i]) by
          simp [pickLoop, hi, hlen, hstop]]
        exact ih (acc ++ [i]) (by rw [hlen]; omega)

theorem simDesc_total (a b : Nat × ℚ) : simDesc a b = true ∨ simDesc b a = true := by
  simp only [simDesc, decide_eq_true_eq]
  exact (le_total b.2 a.2).imp id id

theorem simDesc_trans (a b c : Nat × ℚ) (h1 : simDesc a b = true) (h2 : simDesc b c = true) :
    simDesc a c = true := by
  simp only [simDesc, decide_eq_true_eq] at *
  exact le_trans h2 h1

theorem sorted_enum_pairwise (row : List ℚ) :
    (stableSort simDesc (enumFrom 0 row)).Pairwise
      (fun p q => q.2 ≤ p.2 ∧ (p.2 = q.2 → p.1 < q.1)) := by
  have hperm := stableSort_perm simDesc (enumFrom 0 row)
  have hnd : (stableSort simDesc (enumFrom 0 row)).Nodup :=
    hperm.nodup_iff.mpr (nodup_enumFrom row 0)
  have hpw := stableSort_pairwise simDesc simDesc_total simDesc_trans (enumFrom 0 row)
  rw [List.pairwise_iff_forall_sublist]
  intro p q hsub
  constructor
  · have h1 := List.pairwise_iff_forall_sublist.mp hpw hsub
    simpa [simDesc] using h1
  · intro htie
    by_contra hlt
    push_neg at hlt
    have hpE : p ∈ enumFrom 0 row := hperm.mem_iff.mp (hsub.subset (by simp))
    have hqE : q ∈ enumFrom 0 row := hperm.mem_iff.mp (hsub.subset (by simp))
    rcases Nat.lt_or_ge q.1 p.1 with hqlt | hge
    · have hqp := pair_sublist_enumFrom row 0 hqE hpE hqlt
      have hle : simDesc q p = true := by
        simp [simDesc, htie]
      have h2 := stableSort_stable_pair simDesc hle hqp
      have h3 := sublist_pair_asymm _ hnd hsub h2
      rw [h3] at hqlt
      exact Nat.lt_irrefl _ hqlt
    · have heq1 : p.1 = q.1 := Nat.le_antisymm (by omega) hlt
      have hpq : p = q := Prod.ext heq1 htie
      rw [← hpq] at hsub
      have hne := List.pairwise_iff_forall_sublist.mp hnd hsub
      exact hne rfl

theorem sorted_enum_pairwise_fst (row : List ℚ) :
    ((stableSort simDesc (enumFrom 0 row)).map Prod.fst).Pairwise
      (fun i j => row.getD j 0 ≤ row.getD i 0 ∧
        (row.getD i 0 = row.getD j 0 → i < j)) := by
  rw [List.pairwise_map, List.pairwise_iff_forall_sublist]
  intro p q hsub
  have hperm := stableSort_perm simDesc (enumFrom 0 row)
  have hpE : p ∈ enumFrom 0 row := hperm.mem_iff.mp (hsub.subset (by simp))
  have hqE : q ∈ enumFrom 0 row := hperm.mem_iff.mp (hsub.subset (by simp))
  rcases p with ⟨i, a⟩
  rcases q with ⟨j, b⟩
  have hpv := (mem_enumFrom row 0 0 hpE).2.2
  have hqv := (mem_enumFrom row 0 0 hqE).2.2
  simp only [Nat.sub_zero] at hpv hqv
  have hQ := List.pairwise_iff_forall_sublist.mp (sorted_enum_pairwise row) hsub
  simp only at hQ ⊢
  rw [hpv, hqv]
  exact hQ

/-- Claim C1 (amended): for every title whose lookup succeeds — its
normalized form occurs exactly once among the indexed normalized titles —
and every `top_n ≥ 1`, `recommend` returns at most `top_n` results,
ordered so that consecutive results are non-increasing in the
similarity-matrix score of the query's row, with ties between equal
scores broken by ascending original row order, and the query row itself
is never selected. -/
theorem recommend_sorted_truncated (cat : List Record) (sim : List (List ℚ))
    (t : Str) (n idx : Nat)
    (hidx : best_match_index cat t = Except.ok (some idx)) (hn : 1 ≤ n) :
    ∃ rows : List Nat,
      recommend_rows cat sim t n = Except.ok rows ∧
      recommend cat sim t n
        = Except.ok (rows.map (fun i => mkResult (cat.getD i dfltRecord))) ∧
      rows.length ≤ n ∧
      idx ∉ rows ∧
      rows.Chain' (fun i j =>
        (sim.getD idx []).getD j 0 ≤ (sim.getD idx []).getD i 0 ∧
        ((sim.getD idx []).getD i 0 = (sim.getD idx []).getD j 0 → i < j)) := by
  obtain ⟨picked, h1, h2, h3⟩ :=
    pickLoop_decomp idx n (stableSort simDesc (enumFrom 0 (sim.getD idx []))) []
  simp only [List.nil_append] at h1
  have hrows : recommend_rows cat sim t n
      = Except.ok (pickLoop (stableSort simDesc (enumFrom 0 (sim.getD idx []))) idx n []) := by
    simp only [recommend_rows]
    rw [hidx]
  refine ⟨_, hrows, ?_, ?_, ?_, ?_⟩
  · simp only [recommend, hrows, Except.map]
  · exact pickLoop_length idx n _ [] (by simpa using hn)
  · rw [h1]
    exact h3
  · rw [h1]
    exact (List.Pairwise.sublist h2 (sorted_enum_pairwise_fst (sim.getD idx []))).chain'

/-- Claim C1 witness: on a concrete catalog and similarity matrix, the
exact-title lookup of "Up" succeeds at row 0 and the theorem's
conclusions hold at `top_n = 1`. -/
theorem recommend_sorted_truncated_holds :
    ∃ rows : List Nat,
      recommend_rows catUD simUD ("Up".data) 1 = Except.ok rows ∧
      recommend catUD simUD ("Up".data) 1
        = Except.ok (rows.map (fun i => mkResult (catUD.getD i dfltRecord))) ∧
      rows.length ≤ 1 ∧
      0 ∉ rows ∧
      rows.Chain' (fun i j =>
        (simUD.getD 0 []).getD j 0 ≤ (simUD.getD 0 []).getD i 0 ∧
        ((simUD.getD 0 []).getD i 0 = (simUD.getD 0 []).getD j 0 → i < j)) :=
  recommend_sorted_truncated catUD simUD ("Up".data) 1 0 (by decide) (by decide)

/-- Claim C1 counterexample: as stated the claim fails on the code in two
ways. With `top_n = 0` the selection loop still picks one row before the
length check fires, so `recommend` returns one result, not at most zero;
and on a normalized-title collision, where the normalized query is
present in the Title Index twice, `recommend` raises (models the
`TypeError`) instead of returning an ordered list. -/
theorem recommend_claim_counterexample :
    recommend_rows catUD simUD ("Up".data) 0 = Except.ok [1] ∧
    (recommend catUD simUD ("Up".data) 0).map List.length = Except.ok 1 ∧
    recommend catCollide simUD ("Up".data) 5 = Except.error () := by
  exact ⟨by decide, by decide, by decide⟩

theorem dropDupValues_eq_self :
    ∀ (l : List (Str × Nat)), l.Pairwise (fun p q => p.2 ≠ q.2) →
      ∀ seen, (∀ p ∈ l, p.2 ∉ seen) → dropDupValues l seen = l := by
  intro l
  induction l with
  | nil => intro _ seen _; rfl
  | cons p ps ih =>
    intro hpw seen hseen
    rcases List.pairwise_cons.mp hpw with ⟨hp, hps⟩
    rw [show dropDupValues (p :: ps) seen = p :: dropDupValues ps (p.2 :: seen) by
      simp [dropDupValues, hseen p (List.mem_cons_self p ps)]]
    rw [ih hps (p.2 :: seen) ?_]
    intro q hq
    simp only [List.mem_cons]
    rintro (h1 | h1)
    · exact hp q hq h1.symm
    · exact hseen q (List.mem_cons_of_mem p hq) h1

theorem mem_idx_by_title (cat : List Record) (j : Nat) (hj : j < cat.length) :
    ((cat.getD j dfltRecord).titleNorm, j) ∈ idx_by_title cat := by
  unfold idx_by_title
  rw [dropDupValues_eq_self _ ?_ [] (by simp)]
  · refine List.mem_map.mpr ⟨(j, cat.getD j dfltRecord), ?_, rfl⟩
    simpa using enumFrom_mem_of_lt cat dfltRecord 0 j hj
  · rw [List.pairwise_map]
    refine (pairwise_lt_enumFrom cat 0).imp ?_
    intro p q h heq
    simp only at heq
    rw [heq] at h
    exact Nat.lt_irrefl _ h

theorem best_match_unique (cat : List Record) (t : Str) (idx : Nat)
    (hidx : best_match_index cat t = Except.ok (some idx)) :
    ∀ j, j < cat.length → (cat.getD j dfltRecord).titleNorm = normalize_title t →
      j = idx := by
  intro j hj hnorm
  simp only [best_match_index] at hidx
  rcases hfil : (idx_by_title cat).filter (fun p => p.1 == normalize_title t)
    with _ | ⟨p, ps⟩
  · rw [hfil] at hidx
    simp at hidx
  · rcases ps with _ | ⟨p2, ps2⟩
    · rw [hfil] at hidx
      simp only [Except.ok.injEq, Option.some.injEq] at hidx
      have hmemf : ((cat.getD j dfltRecord).titleNorm, j)
          ∈ (idx_by_title cat).filter (fun p => p.1 == normalize_title t) :=
        List.mem_filter.mpr ⟨mem_idx_by_title cat j hj, by
          simp only [beq_iff_eq]
          exact hnorm⟩
      rw [hfil] at hmemf
      simp only [List.mem_singleton] at hmemf
      rw [← hidx, ← hmemf]
    · rw [hfil] at hidx
      simp at hidx

/-- Claim C2: no self-recommendation — whenever `recommend` returns a
result list (for a similarity matrix whose rows index into the catalog),
no selected row's `title_norm` equals the normalized query; in the
collision case, where two display titles share one `title_norm`, the call
errors instead of returning, so nothing is returned there either. -/
theorem recommend_no_self (cat : List Record) (sim : List (List ℚ)) (t : Str)
    (n : Nat) (rows : List Nat)
    (hdim : ∀ row ∈ sim, row.length ≤ cat.length)
    (hok : recommend_rows cat sim t n = Except.ok rows) :
    ∀ i ∈ rows, (cat.getD i dfltRecord).titleNorm ≠ normalize_title t := by
  intro i hi hcontra
  rcases hb : best_match_index cat t with e | ov
  · simp only [recommend_rows] at hok
    rw [hb] at hok
    simp at hok
  · cases ov with
    | none =>
      simp only [recommend_rows] at hok
      rw [hb] at hok
      simp only [Except.ok.injEq] at hok
      rw [← hok] at hi
      simp at hi
    | some idx =>
      simp only [recommend_rows] at hok
      rw [hb] at hok
      simp only [Except.ok.injEq] at hok
      obtain ⟨picked, h1, h2, h3⟩ :=
        pickLoop_decomp idx n (stableSort simDesc (enumFrom 0 (sim.getD idx []))) []
      simp only [List.nil_append] at h1
      rw [← hok, h1] at hi
      have hne : i ≠ idx := fun h => h3 (h ▸ hi)
      have hmap : i ∈ (stableSort simDesc (enumFrom 0 (sim.getD idx []))).map Prod.fst :=
        h2.subset hi
      rcases List.mem_map.mp hmap with ⟨p, hpS, hpf⟩
      have hpE : p ∈ enumFrom 0 (sim.getD idx []) :=
        (stableSort_perm simDesc _).mem_iff.mp hpS
      have hpE2 : (p.1, p.2) ∈ enumFrom 0 (sim.getD idx []) := by
        simpa using hpE
      have hbound := (mem_enumFrom (sim.getD idx []) 0 0 hpE2).2.1
      rw [hpf] at hbound
      simp only [Nat.zero_add] at hbound
      have hrowle : (sim.getD idx []).length ≤ cat.length := by
        by_cases hlt : idx < sim.length
        · exact hdim _ (by rw [List.getD_eq_getElem sim [] hlt]; exact List.getElem_mem hlt)
        · rw [List.getD_eq_default sim [] (by omega)]
          simp
      exact hne (best_match_unique cat t idx hb i (by omega) hcontra)

/-- Claim C2 witness: on the concrete catalog, the one row recommended
for "Up" does not carry the normalized title "up". -/
theorem recommend_no_self_holds :
    (catUD.getD 1 dfltRecord).titleNorm ≠ normalize_title ("Up".data) :=
  recommend_no_self catUD simUD ("Up".data) 5 [1] (by decide) (by decide) 1 (by decide)

/-! ### Top-rated sorting (claim C8) -/

theorem optRatingLe_total (x y : Option ℚ) :
    optRatingLe x y = true ∨ optRatingLe y x = true := by
  cases x with
  | none => exact Or.inl rfl
  | some a =>
    cases y with
    | none => exact Or.inr rfl
    | some b =>
      simp only [optRatingLe, decide_eq_true_eq]
      exact le_total a b

theorem optRatingLe_trans (x y z : Option ℚ) (h1 : optRatingLe x y = true)
    (h2 : optRatingLe y z = true) : optRatingLe x z = true := by
  cases x with
  | none => rfl
  | some a =>
    cases y with
    | none => simp [optRatingLe] at h1
    | some b =>
      cases z with
      | none => simp [optRatingLe] at h2
      | some c =>
        simp only [optRatingLe, decide_eq_true_eq] at *
        exact le_trans h1 h2

/-- Claim C8: `get_top_rated_movies` (modelled from the spec — its
defining code is imported by `app.py` but absent from the sources)
returns at most `limit` records, ordered so that consecutive records are
non-increasing in their coerced numeric rating with non-numeric ratings
lowest; in particular, over the three records rated "8.5", "nan" and
"9.1" it returns the "9.1" record first, then "8.5", with the "nan"
record last. -/
theorem get_top_rated_movies_spec (cat : List Record) (limit : Nat) :
    (get_top_rated_movies cat limit).length ≤ limit ∧
    (get_top_rated_movies cat limit).Chain' (fun a b =>
      optRatingLe (parseRating b.imdbRating) (parseRating a.imdbRating) = true) ∧
    get_top_rated_movies catRated 2
      = [catRated.getD 2 dfltRecord, catRated.getD 0 dfltRecord] ∧
    get_top_rated_movies catRated 3
      = [catRated.getD 2 dfltRecord, catRated.getD 0 dfltRecord,
          catRated.getD 1 dfltRecord] := by
  have hsorted := stableSort_pairwise
    (fun a b : Record => optRatingLe (parseRating b.imdbRating) (parseRating a.imdbRating))
    (fun a b => (optRatingLe_total (parseRating b.imdbRating) (parseRating a.imdbRating)).imp
      id id)
    (fun a b c h1 h2 => optRatingLe_trans _ _ _ h2 h1) cat
  have e85 : parseRating (("8.5").data)
      = some (((8 : ℕ) : ℚ) + ((5 : ℕ) : ℚ) / 10 ^ (1 : ℕ)) := rfl
  have e91 : parseRating (("9.1").data)
      = some (((9 : ℕ) : ℚ) + ((1 : ℕ) : ℚ) / 10 ^ (1 : ℕ)) := rfl
  have enan : parseRating (("nan").data) = none := by decide
  obtain ⟨A, B, C, hcat, hrA, hrB, hrC, hg2, hg0, hg1⟩ :
      ∃ A B C, catRated = [A, B, C] ∧ A.imdbRating = (("8.5").data) ∧
        B.imdbRating = (("nan").data) ∧ C.imdbRating = (("9.1").data) ∧
        catRated.getD 2 dfltRecord = C ∧ catRated.getD 0 dfltRecord = A ∧
        catRated.getD 1 dfltRecord = B :=
    ⟨catRated.getD 0 dfltRecord, catRated.getD 1 dfltRecord, catRated.getD 2 dfltRecord,
      by decide, by decide, by decide, by decide, rfl, rfl, rfl⟩
  have hvA : parseRating A.imdbRating
      = some (((8 : ℕ) : ℚ) + ((5 : ℕ) : ℚ) / 10 ^ (1 : ℕ)) := by rw [hrA, e85]
  have hvB : parseRating B.imdbRating = none := by rw [hrB, enan]
  have hvC : parseRating C.imdbRating
      = some (((9 : ℕ) : ℚ) + ((1 : ℕ) : ℚ) / 10 ^ (1 : ℕ)) := by rw [hrC, e91]
  have lBC : optRatingLe (parseRating C.imdbRating) (parseRating B.imdbRating) = false := by
    rw [hvC, hvB]
    rfl
  have lAC : optRatingLe (parseRating C.imdbRating) (parseRating A.imdbRating) = false := by
    rw [hvC, hvA]
    simp only [optRatingLe, decide_eq_false_iff_not]
    push_cast
    norm_num
  have lAB : optRatingLe (parseRating B.imdbRating) (parseRating A.imdbRating) = true := by
    rw [hvB]
    rfl
  have hsort : stableSort
      (fun a b : Record => optRatingLe (parseRating b.imdbRating) (parseRating a.imdbRating))
      catRated = [C, A, B] := by
    rw [hcat]
    simp only [stableSort, insertSorted, lBC, lAC, lAB, Bool.false_eq_true, if_false, if_true]
  refine ⟨?_, ?_, ?_, ?_⟩
  · exact List.length_take_le limit _
  · exact (List.Pairwise.sublist (List.take_sublist limit _) hsorted).chain'
  · rw [hg2, hg0]
    simp only [get_top_rated_movies, hsort, List.take_succ_cons, List.take_zero]
  · rw [hg2, hg0, hg1]
    simp only [get_top_rated_movies, hsort, List.take_succ_cons, List.take_zero]

/-! ### Cosine similarity (claim C5) -/

theorem dotProd_cons (a b : ℝ) (v w : List ℝ) :
    dotProd (a :: v) (b :: w) = a * b + dotProd v w := by
  simp [dotProd]

theorem dotProd_nil_right (v : List ℝ) : dotProd v [] = 0 := by
  cases v <;> simp [dotProd]

theorem dotProd_comm (v : List ℝ) : ∀ w, dotProd v w = dotProd w v := by
  induction v with
  | nil => intro w; rw [dotProd_nil_right]; rfl
  | cons a v ih =>
    intro w
    cases w with
    | nil => rw [dotProd_nil_right]; rfl
    | cons b w => rw [dotProd_cons, dotProd_cons, ih w, mul_comm]

theorem dotProd_self_nonneg (v : List ℝ) : 0 ≤ dotProd v v := by
  induction v with
  | nil => simp [dotProd]
  | cons a v ih =>
    rw [dotProd_cons]
    nlinarith [mul_self_nonneg a]

theorem dotProd_nonneg (v : List ℝ) :
    ∀ w, (∀ x ∈ v, 0 ≤ x) → (∀ x ∈ w, 0 ≤ x) → 0 ≤ dotProd v w := by
  induction v with
  | nil => intro w _ _; simp [dotProd]
  | cons a v ih =>
    intro w hv hw
    cases w with
    | nil => rw [dotProd_nil_right]
    | cons b w =>
      rw [dotProd_cons]
      have h1 : 0 ≤ a * b :=
        mul_nonneg (hv a (List.mem_cons_self a v)) (hw b (List.mem_cons_self b w))
      have h2 := ih w (fun x hx => hv x (List.mem_cons_of_mem a hx))
        (fun x hx => hw x (List.mem_cons_of_mem b hx))
      linarith

theorem cs_step (a b P Q d : ℝ) (hP : 0 ≤ P) (hQ : 0 ≤ Q) (hd : d ^ 2 ≤ P * Q) :
    (a * b + d) ^ 2 ≤ (a ^ 2 + P) * (b ^ 2 + Q) := by
  have key : 2 * a * b * d ≤ a ^ 2 * Q + b ^ 2 * P := by
    rcases le_or_lt (a ^ 2 * Q + b ^ 2 * P + 2 * a * b * d) 0 with hc | hc
    · nlinarith [mul_nonneg (sq_nonneg a) hQ, mul_nonneg (sq_nonneg b) hP]
    · nlinarith [sq_nonneg (a ^ 2 * Q - b ^ 2 * P),
        mul_nonneg (sq_nonneg (a * b)) (sub_nonneg.mpr hd)]
  nlinarith [key, hd]

theorem dotProd_sq_le (v : List ℝ) : ∀ w, dotProd v w ^ 2 ≤ dotProd v v * dotProd w w := by
  induction v with
  | nil => intro w; simp [dotProd]
  | cons a v ih =>
    intro w
    cases w with
    | nil => simp [dotProd_nil_right]
    | cons b w =>
      rw [dotProd_cons, dotProd_cons, dotProd_cons,
        show a * a = a ^ 2 by ring, show b * b = b ^ 2 by ring]
      exact cs_step a b (dotProd v v) (dotProd w w) (dotProd v w)
        (dotProd_self_nonneg v) (dotProd_self_nonneg w) (ih w)

theorem dotProd_self_pos (v : List ℝ) (h : ∃ x ∈ v, x ≠ 0) : 0 < dotProd v v := by
  induction v with
  | nil => simp at h
  | cons a v ih =>
    rw [dotProd_cons]
    rcases h with ⟨x, hx, hxne⟩
    rcases List.mem_cons.mp hx with rfl | hx2
    · nlinarith [mul_self_pos.mpr hxne, dotProd_self_nonneg v]
    · nlinarith [ih ⟨x, hx2, hxne⟩, mul_self_nonneg a]

theorem dotProd_le_norms (v w : List ℝ) : dotProd v w ≤ vecNorm v * vecNorm w := by
  have h1 : dotProd v w ≤ |dotProd v w| := le_abs_self _
  have h2 : |dotProd v w| = Real.sqrt (dotProd v w ^ 2) := (Real.sqrt_sq_eq_abs _).symm
  have h3 : Real.sqrt (dotProd v w ^ 2) ≤ Real.sqrt (dotProd v v * dotProd w w) :=
    Real.sqrt_le_sqrt (dotProd_sq_le v w)
  have h4 : Real.sqrt (dotProd v v * dotProd w w) = vecNorm v * vecNorm w := by
    unfold vecNorm
    rw [Real.sqrt_mul (dotProd_self_nonneg v)]
  linarith

theorem cosineSim_comm (v w : List ℝ) : cosineSim v w = cosineSim w v := by
  unfold cosineSim
  rw [dotProd_comm, mul_comm]

theorem cosineSim_nonneg (v w : List ℝ) (hv : ∀ x ∈ v, 0 ≤ x) (hw : ∀ x ∈ w, 0 ≤ x) :
    0 ≤ cosineSim v w := by
  unfold cosineSim
  exact div_nonneg (dotProd_nonneg v w hv hw)
    (mul_nonneg (Real.sqrt_nonneg _) (Real.sqrt_nonneg _))

theorem vecNorm_nonneg (v : List ℝ) : 0 ≤ vecNorm v := Real.sqrt_nonneg _

theorem cosineSim_le_one (v w : List ℝ) : cosineSim v w ≤ 1 := by
  unfold cosineSim
  rcases eq_or_lt_of_le (mul_nonneg (vecNorm_nonneg v) (vecNorm_nonneg w)) with h0 | hpos
  · rw [← h0]
    simp
  · rw [div_le_one hpos]
    exact dotProd_le_norms v w

theorem cosineSim_self (v : List ℝ) (h : ∃ x ∈ v, x ≠ 0) : cosineSim v v = 1 := by
  unfold cosineSim vecNorm
  have hpos := dotProd_self_pos v h
  rw [Real.mul_self_sqrt (le_of_lt hpos)]
  exact div_self (ne_of_gt hpos)

theorem getD_mem {l : List α} {i : Nat} (d : α) (h : i < l.length) : l.getD i d ∈ l := by
  rw [List.getD_eq_getElem l d h]
  exact List.getElem_mem h

/-- Claim C5: the similarity matrix `cosine_similarity(tfidf_matrix,
tfidf_matrix)` is symmetric, every entry lies in `[0, 1]` (the tf-idf
vectors have non-negative entries), and every diagonal entry equals 1,
given that no row is the all-zero vector. -/
theorem cosine_sim_matrix_props (vs : List (List ℝ)) (i j : Nat)
    (hnn : ∀ v ∈ vs, ∀ x ∈ v, 0 ≤ x)
    (hnz : ∀ v ∈ vs, ∃ x ∈ v, x ≠ 0)
    (hi : i < vs.length) (hj : j < vs.length) :
    cosine_sim vs i j = cosine_sim vs j i ∧
    0 ≤ cosine_sim vs i j ∧ cosine_sim vs i j ≤ 1 ∧
    cosine_sim vs i i = 1 := by
  have hvi : vs.getD i [] ∈ vs := getD_mem [] hi
  have hvj : vs.getD j [] ∈ vs := getD_mem [] hj
  refine ⟨?_, ?_, ?_, ?_⟩
  · exact cosineSim_comm _ _
  · exact cosineSim_nonneg _ _ (hnn _ hvi) (hnn _ hvj)
  · exact cosineSim_le_one _ _
  · exact cosineSim_self _ (hnz _ hvi)

/-- Claim C5 witness: the one-row matrix of the single vector `[1]` has a
symmetric similarity matrix with entries in `[0, 1]` and unit diagonal. -/
theorem cosine_sim_matrix_props_holds :
    cosine_sim [[(1 : ℝ)]] 0 0 = cosine_sim [[(1 : ℝ)]] 0 0 ∧
    0 ≤ cosine_sim [[(1 : ℝ)]] 0 0 ∧ cosine_sim [[(1 : ℝ)]] 0 0 ≤ 1 ∧
    cosine_sim [[(1 : ℝ)]] 0 0 = 1 :=
  cosine_sim_matrix_props [[(1 : ℝ)]] 0 0
    (by
      intro v hv x hx
      rw [List.mem_singleton] at hv
      subst hv
      rw [List.mem_singleton] at hx
      subst hx
      norm_num)
    (by
      intro v hv
      rw [List.mem_singleton] at hv
      subst hv
      exact ⟨1, List.mem_singleton.mpr rfl, one_ne_zero⟩)
    (by norm_num) (by norm_num)
